import Mathlib

/-!
# hideproc: registry of hidden identifiers and the filtered `find_ge_pid`

Shallow embedding of `src/main.c`.

* The global list `hidden_proc` is a `List Int` passed explicitly; an entry is
  the `id` field of a `pid_node_t`, the list order is the order of the nodes
  from the list head.
* A `struct pid` is reduced to the two things the filter reads from it: its
  number `pid->numbers->nr` and the task `pid_task(pid, PIDTYPE_TGID)` gives
  for it (if any); of a task only `t->real_parent->pid` is read. The
  namespace is the initial one, where `pid->numbers->nr` is also the
  identifier under which the IDR holds the `struct pid`.
* Pid numbers are allocated below `PID_MAX_LIMIT` (at most `2 ^ 22`), far from
  `INT_MAX`, so the `int` addition `pid->numbers->nr + 1` is exact and is
  written as addition in `Int`.
* `kmalloc` is taken to succeed and the user buffers handed to the device
  callbacks are taken to be accessible. `long` has 64 bits, `pid_t` 32.
* A store past the end of a local array is undefined behaviour; the function
  doing it has no result (`none`). A read past the end of the copy of the
  payload yields the bytes that happen to follow it, which `device_write`
  takes as an input.
* The host's tracing facility is reduced to the filter and the registration
  state it keeps for an ops, and to the return values of the two calls that
  can fail, which are inputs.
-/

namespace Hideproc

/-! ## Host data read by the filter -/

/-- The part of a `struct task_struct` read by `hook_find_ge_pid`:
`t->real_parent->pid`. -/
structure task_struct where
  real_parent_pid : Int
  deriving DecidableEq, Repr

/-- The part of a `struct pid` read by `hook_find_ge_pid`: the number
`pid->numbers->nr` and the result of `pid_task(pid, PIDTYPE_TGID)`. -/
structure struct_pid where
  nr : Int
  task : Option task_struct
  deriving DecidableEq, Repr

/-- Modelled from the spec: the host's IDR lookup, absent from the sources. The
IDR of a namespace is a finite map from identifiers to `struct pid`s, kept
here as an association list in which the first binding of an identifier is
the one that counts. -/
def idr_find (idr : List struct_pid) (id : Int) : Option struct_pid :=
  idr.find? (fun p => decide (p.nr = id))

/-- Modelled from the spec: the host's `idr_get_next`, absent from the sources
("given a lower-bound identifier, returns the next equal-or-greater live
process identifier"): the entry with the least identifier `>= nr`, or none. -/
def idr_get_next : List struct_pid → Int → Option struct_pid
  | [], _ => none
  | p :: rest, nr =>
    match idr_get_next rest nr with
    | none => if nr ≤ p.nr then some p else none
    | some q => if nr ≤ p.nr ∧ p.nr ≤ q.nr then some p else some q

/-- `real_find_ge_pid(nr, ns)`: `idr_get_next(&ns->idr, &nr)`. -/
def real_find_ge_pid (ns : List struct_pid) (nr : Int) : Option struct_pid :=
  idr_get_next ns nr

/-! ## The registry -/

/-- `is_hidden_proc(pid)`: scan of `hidden_proc` from the head, true at the
first node whose `id` equals `pid`. -/
def is_hidden_proc : List Int → Int → Bool
  | [], _ => false
  | proc :: rest, pid => if proc = pid then true else is_hidden_proc rest pid

/-- `hide_process(pid)`: `list_add_tail` of a fresh node holding `pid`. -/
def hide_process (hidden_proc : List Int) (pid : Int) : List Int :=
  hidden_proc ++ [pid]

/-- `unhide_process(pid)`: the safe traversal that unlinks and frees every node
whose `id` equals `pid` and steps over the others. -/
def unhide_process : List Int → Int → List Int
  | [], _ => []
  | proc :: rest, pid =>
    if proc ≠ pid then proc :: unhide_process rest pid
    else unhide_process rest pid

/-- One registry operation: a call of `hide_process` or of `unhide_process`. -/
inductive registry_op where
  | hide (id : Int)
  | unhide (id : Int)
  deriving DecidableEq, Repr

/-- The registry after one operation. -/
def apply_op (hidden_proc : List Int) : registry_op → List Int
  | registry_op.hide id => hide_process hidden_proc id
  | registry_op.unhide id => unhide_process hidden_proc id

/-- The registry after a sequence of operations applied in order. -/
def replay (ops : List registry_op) (hidden_proc : List Int) : List Int :=
  ops.foldl apply_op hidden_proc

/-! ## The filter -/

/-- The three tests of the loop body of `hook_find_ge_pid` that end in
`goto next`: the candidate is hidden, it has no task, or its task's real
parent is hidden. -/
def hook_skip (hidden_proc : List Int) (pid : struct_pid) : Bool :=
  if is_hidden_proc hidden_proc pid.nr then true
  else
    match pid.task with
    | none => true
    | some t => if is_hidden_proc hidden_proc t.real_parent_pid then true else false

/-- The `while (pid)` loop of `hook_find_ge_pid` over an arbitrary original
primitive `real`, started on a candidate. Each iteration costs one unit of
fuel; the outer `none` says the fuel ran out, `some r` that the loop was left
with `pid = r`. -/
def hook_loop (real : Int → Option struct_pid) (hidden_proc : List Int) :
    Nat → Option struct_pid → Option (Option struct_pid)
  | _, none => some none
  | 0, some _ => none
  | fuel + 1, some pid =>
    if hook_skip hidden_proc pid then
      hook_loop real hidden_proc fuel (real (pid.nr + 1))
    else some (some pid)

/-- The lower bounds handed to the original primitive by the retries of the
loop (`pid->numbers->nr + 1` at each `next:`), in order. -/
def hook_retries (real : Int → Option struct_pid) (hidden_proc : List Int) :
    Nat → Option struct_pid → List Int
  | _, none => []
  | 0, some _ => []
  | fuel + 1, some pid =>
    if hook_skip hidden_proc pid then
      (pid.nr + 1) :: hook_retries real hidden_proc fuel (real (pid.nr + 1))
    else []

/-- `hook_find_ge_pid(nr, ns)` over an arbitrary original primitive, with
fuel. -/
def hook_find_ge_pid_fuel (real : Int → Option struct_pid) (hidden_proc : List Int)
    (fuel : Nat) (nr : Int) : Option (Option struct_pid) :=
  hook_loop real hidden_proc fuel (real nr)

/-- `hook_find_ge_pid(nr, ns)` on a namespace: one unit of fuel per entry of
the IDR, which the loop never uses up (`hook_find_ge_pid_spec`). -/
def hook_find_ge_pid (hidden_proc : List Int) (ns : List struct_pid) (nr : Int) :
    Option (Option struct_pid) :=
  hook_find_ge_pid_fuel (real_find_ge_pid ns) hidden_proc ns.length nr

/-- The caller's enumeration described by the spec: call the filter at the
lower bound, then at the last result's number plus one, until it yields
none. The outer `none` says the fuel ran out. -/
def walk (hidden_proc : List Int) (ns : List struct_pid) :
    Nat → Int → Option (List struct_pid)
  | 0, _ => none
  | fuel + 1, nr =>
    match hook_find_ge_pid hidden_proc ns nr with
    | none => none
    | some none => some []
    | some (some p) => (walk hidden_proc ns fuel (p.nr + 1)).map (fun l => p :: l)

/-- The walk from lower bound `nr` with fuel for one call per entry and the
final call that yields none. -/
def enumerate (hidden_proc : List Int) (ns : List struct_pid) (nr : Int) :
    Option (List struct_pid) :=
  walk hidden_proc ns (ns.length + 1) nr

/-! ## The control surface -/

/-- `OUTPUT_BUFFER_FORMAT`. -/
def OUTPUT_BUFFER_FORMAT : List Char := ['p', 'i', 'd', ':', ' ', '%', 'd', '\n']

/-- `MAX_MESSAGE_SIZE`: `sizeof(OUTPUT_BUFFER_FORMAT) + 4`, the `sizeof` of a
string literal counting its terminating NUL. -/
def MAX_MESSAGE_SIZE : Nat := (OUTPUT_BUFFER_FORMAT.length + 1) + 4

/-- The characters `%d` produces for an `int`. -/
def fmt_d (v : Int) : List Char :=
  if v < 0 then '-' :: Nat.toDigits 10 v.natAbs else Nat.toDigits 10 v.natAbs

/-- The line `sprintf(message, OUTPUT_BUFFER_FORMAT, id)` produces, without its
terminating NUL. -/
def pid_line (id : Int) : List Char :=
  ['p', 'i', 'd', ':', ' '] ++ fmt_d id ++ ['\n']

/-- `sprintf(message, OUTPUT_BUFFER_FORMAT, proc->id)` into the zeroed
`char message[MAX_MESSAGE_SIZE]`: the line and its terminating NUL are stored
from `message[0]`; `none` when they do not fit, the store then running past
the end of the array. -/
def sprintf_message (id : Int) : Option (List Char) :=
  if (pid_line id).length + 1 ≤ MAX_MESSAGE_SIZE then some (pid_line id) else none

/-- `copy_to_user(buffer + off, message, strlen(message))` on the bytes of the
user buffer stored so far. -/
def copy_to_user (buffer : List Char) (off : Int) (message : List Char) : List Char :=
  buffer.take off.toNat ++ message ++ buffer.drop (off.toNat + message.length)

/-- The traversal in `device_read`: for each node in list order, format its id
into `message`, copy the line to `buffer + *offset`, advance `*offset` by its
length. The state is the user buffer and `*offset`. -/
def device_read_loop : List Int → List Char × Int → Option (List Char × Int)
  | [], st => some st
  | id :: rest, (buffer, offset) =>
    match sprintf_message id with
    | none => none
    | some message =>
      device_read_loop rest
        (copy_to_user buffer offset message, offset + (message.length : Int))

/-- What a `device_read` call leaves: its return value, the bytes it stored in
the user buffer (from `buffer[0]`), and `*offset`. -/
structure read_result where
  ret : Int
  buffer : List Char
  offset : Int
  deriving DecidableEq, Repr

/-- `device_read(filep, buffer, len, offset)`; `none` when a `sprintf` ran past
the end of `message`. -/
def device_read (hidden_proc : List Int) (_len : Nat) (offset : Int) : Option read_result :=
  if offset ≠ 0 then some ⟨0, [], offset⟩
  else
    match device_read_loop hidden_proc ([], offset) with
    | none => none
    | some (buffer, offset) => some ⟨offset, buffer, offset⟩

/-- Modelled from the spec: the digit loop of the host's decimal parser
(`_parse_integer` in base 10), absent from the sources: the number of leading
digits, their value, and the rest of the string. -/
def parse_integer : List Char → Nat → Nat → Nat × Nat × List Char
  | [], rv, res => (rv, res, [])
  | c :: s, rv, res =>
    if '0' ≤ c ∧ c ≤ '9' then parse_integer s (rv + 1) (res * 10 + (c.toNat - '0'.toNat))
    else (rv, res, c :: s)

/-- Modelled from the spec: the host's `_kstrtoull` in base 10, absent from the
sources: fails on a value that does not fit 64 bits, on no digit at all, and
on anything after the digits other than one newline. -/
def kstrtoull_body (s : List Char) : Option Nat :=
  match parse_integer s 0 0 with
  | (rv, res, rest) =>
    if 2 ^ 64 ≤ res then none
    else if rv = 0 then none
    else
      match rest with
      | [] => some res
      | ['\n'] => some res
      | _ => none

/-- Modelled from the spec: the host's `kstrtoull` in base 10: `_kstrtoull`
after one optional `+`. -/
def kstrtoull (s : List Char) : Option Nat :=
  match s with
  | '+' :: s1 => kstrtoull_body s1
  | _ => kstrtoull_body s

/-- Modelled from the spec: the host's `kstrtol(s, 10, &res)` for a 64-bit
`long`, absent from the sources: `some v` when it stores `v` and returns 0,
`none` when it returns an error and leaves `res` alone. The argument is the
C string, without its terminating NUL. -/
def kstrtol (s : List Char) : Option Int :=
  match s with
  | '-' :: s1 =>
    match kstrtoull_body s1 with
    | none => none
    | some tmp => if 2 ^ 63 < tmp then none else some (-(tmp : Int))
  | _ =>
    match kstrtoull s with
    | none => none
    | some tmp => if 2 ^ 63 ≤ tmp then none else some (tmp : Int)

/-- The conversion of a `long` to `pid_t` at the calls of `hide_process` and
`unhide_process`: the low 32 bits, read as signed. -/
def to_pid_t (v : Int) : Int :=
  (v + 2 ^ 31) % 2 ^ 32 - 2 ^ 31

/-- `EAGAIN`. -/
def EAGAIN : Int := 11

/-- The NUL byte. -/
def NUL : Char := Char.ofNat 0

/-- The C string that starts at `message + at`: the bytes up to the first NUL,
read from the `len + 1` bytes of `message` and, past them, from `beyond`. -/
def c_string (message beyond : List Char) (i : Nat) : List Char :=
  ((message ++ beyond).drop i).takeWhile (fun c => decide (c ≠ NUL))

/-- What `device_write` depends on besides its arguments: the value the
uninitialised local `long pid` happens to hold, and the bytes that follow the
`len + 1` bytes of `message` in memory. -/
structure write_env where
  pid_uninit : Int
  beyond : List Char
  deriving DecidableEq, Repr

/-- What a `device_write` call leaves: its return value, the registry, and
`*offset`. -/
structure write_result where
  ret : Int
  hidden_proc : List Int
  offset : Int
  deriving DecidableEq, Repr

/-- `device_write(filep, buffer, len, offset)`, `buffer` being the `len` bytes of
the payload. `sizeof(add_message)` and `sizeof(del_message)` are 4. -/
def device_write (env : write_env) (hidden_proc : List Int) (buffer : List Char)
    (offset : Int) : write_result :=
  let len := buffer.length
  let add_message := ['a', 'd', 'd']
  let del_message := ['d', 'e', 'l']
  if len < (add_message.length + 1) - 1 ∧ len < (del_message.length + 1) - 1 then
    ⟨-EAGAIN, hidden_proc, offset⟩
  else
    let message := buffer ++ [NUL]
    if message.take ((add_message.length + 1) - 1) = add_message then
      let pid :=
        match kstrtol (c_string message env.beyond (add_message.length + 1)) with
        | some v => v
        | none => env.pid_uninit
      ⟨len, hide_process hidden_proc (to_pid_t pid), len⟩
    else if message.take ((del_message.length + 1) - 1) = del_message then
      let pid :=
        match kstrtol (c_string message env.beyond (del_message.length + 1)) with
        | some v => v
        | none => env.pid_uninit
      ⟨len, unhide_process hidden_proc (to_pid_t pid), len⟩
    else
      ⟨-EAGAIN, hidden_proc, offset⟩

/-! ## The hook engine -/

/-- The callback held in `ops.func` of a `struct ftrace_ops`. -/
inductive ftrace_func where
  | unset
  | hook_ftrace_thunk
  deriving DecidableEq, Repr

/-- The part of a `struct ftrace_ops` the engine deals with: the callback and
the two flags `hook_install` sets (`FTRACE_OPS_FL_SAVE_REGS`,
`FTRACE_OPS_FL_IPMODIFY`) and, as the host keeps them for the ops, the
addresses in its filter and whether it is registered. -/
structure ftrace_ops where
  func : ftrace_func
  save_regs : Bool
  ipmodify : Bool
  filter : List Nat
  registered : Bool
  deriving DecidableEq, Repr

/-- `struct ftrace_hook`; `func` is the address of the replacement. -/
structure ftrace_hook where
  name : String
  func : Nat
  address : Nat
  ops : ftrace_ops
  deriving DecidableEq, Repr

/-- The `static struct ftrace_hook hook` before `init_hook`: every field zero
(the null `name` is the empty string here). -/
def hook_static : ftrace_hook :=
  ⟨"", 0, 0, ⟨ftrace_func.unset, false, false, [], false⟩⟩

/-- Modelled from the spec: what the host's tracing facility does with the two
calls that can fail, absent from the sources: the address it resolves the
target's name to, and what `ftrace_set_filter` and
`register_ftrace_function` return (0 or an error code). -/
structure ftrace_host where
  target_ip : Nat
  set_filter_ret : Int
  register_ret : Int
  deriving DecidableEq, Repr

/-- A call made to the host's tracing facility. -/
inductive host_call where
  | set_filter (name : String)
  | register
  | set_filter_ip (ip : Nat)
  deriving DecidableEq, Repr

/-- Modelled from the spec: the host's `ftrace_set_filter(ops, name, len, 0)`,
absent from the sources (the name-filter registration): on success the
address of the named routine joins the filter of the ops, on failure the
filter is left as it was. -/
def ftrace_set_filter (h : ftrace_host) (ops : ftrace_ops) : Int × ftrace_ops :=
  if h.set_filter_ret = 0 then (0, { ops with filter := ops.filter ++ [h.target_ip] })
  else (h.set_filter_ret, ops)

/-- Modelled from the spec: the host's `register_ftrace_function(ops)`, absent
from the sources (the activation). -/
def register_ftrace_function (h : ftrace_host) (ops : ftrace_ops) : Int × ftrace_ops :=
  if h.register_ret = 0 then (0, { ops with registered := true })
  else (h.register_ret, ops)

/-- Modelled from the spec: the host's `ftrace_set_filter_ip(ops, ip, 1, 0)`,
absent from the sources: the address `ip` is taken out of the filter of the
ops, the other addresses stay. -/
def ftrace_set_filter_ip (ops : ftrace_ops) (ip : Nat) : ftrace_ops :=
  { ops with filter := ops.filter.filter (fun a => decide (a ≠ ip)) }

/-- `hook_install(hook)`: the return value, the hook as it is left, and the
calls made to the host, in order. -/
def hook_install (h : ftrace_host) (hook : ftrace_hook) :
    Int × ftrace_hook × List host_call :=
  let ops0 : ftrace_ops :=
    { hook.ops with func := ftrace_func.hook_ftrace_thunk, save_regs := true, ipmodify := true }
  match ftrace_set_filter h ops0 with
  | (err, ops1) =>
    if err ≠ 0 then (err, { hook with ops := ops1 }, [host_call.set_filter hook.name])
    else
      match register_ftrace_function h ops1 with
      | (err2, ops2) =>
        if err2 ≠ 0 then
          (err2, { hook with ops := ftrace_set_filter_ip ops2 hook.address },
            [host_call.set_filter hook.name, host_call.register,
              host_call.set_filter_ip hook.address])
        else (0, { hook with ops := ops2 }, [host_call.set_filter hook.name, host_call.register])

/-- The static `hook` after the two assignments of `init_hook`: `name` and `func`
are set, `address` is still zero. -/
def hook_prepared (hook_find_ge_pid_addr : Nat) : ftrace_hook :=
  { hook_static with name := "find_ge_pid", func := hook_find_ge_pid_addr }

/-- `init_hook()`: sets `hook.name` and `hook.func` (the address of
`hook_find_ge_pid`) and calls `hook_install`, whose return value it drops;
being `void` it yields only the hook as it is left. -/
def init_hook (h : ftrace_host) (hook_find_ge_pid_addr : Nat) : ftrace_hook :=
  (hook_install h (hook_prepared hook_find_ge_pid_addr)).2.1

/-- `_hideproc_init()`: the return value and the hook as it is left. The calls
that register the device come first; none of their results is looked at
(`err` is assigned and not read), so they are left out. -/
def _hideproc_init (h : ftrace_host) (hook_find_ge_pid_addr : Nat) : Int × ftrace_hook :=
  let hook := init_hook h hook_find_ge_pid_addr
  (0, hook)

/-- The address ranges of a loaded module (`init_layout` and `core_layout`). -/
structure struct_module where
  init_base : Nat
  init_size : Nat
  core_base : Nat
  core_size : Nat
  deriving DecidableEq, Repr

/-- Modelled from the spec: the host's `within_module(addr, mod)`, absent from
the sources: `addr` lies in the init or in the core range of the module. -/
def within_module (addr : Nat) (mod : struct_module) : Bool :=
  (decide (mod.init_base ≤ addr) && decide (addr < mod.init_base + mod.init_size)) ||
    (decide (mod.core_base ≤ addr) && decide (addr < mod.core_base + mod.core_size))

/-- The saved registers of the traced call: the instruction pointer and the
other registers. -/
structure pt_regs where
  ip : Nat
  others : List Nat
  deriving DecidableEq, Repr

/-- `hook_ftrace_thunk(ip, parent_ip, ops, fregs)`: the saved registers as the
thunk leaves them; `hook` is the `container_of` of `ops`, `this_module` is
`THIS_MODULE`. -/
def hook_ftrace_thunk (this_module : struct_module) (hook : ftrace_hook)
    (_ip parent_ip : Nat) (regs : pt_regs) : pt_regs :=
  if !within_module parent_ip this_module then { regs with ip := hook.func }
  else regs

/-- The value of a run of decimal digits read left to right, continuing from
`acc`. -/
def digits_value (l : List Char) (acc : Nat) : Nat :=
  l.foldl (fun a c => a * 10 + (c.toNat - '0'.toNat)) acc

/-- A namespace of five processes: 50 and 100 and 200 are children of 1, 150
is a child of 100, and 250 is a child of 150. -/
def ns_sample : List struct_pid :=
  [⟨50, some ⟨1⟩⟩, ⟨100, some ⟨1⟩⟩, ⟨150, some ⟨100⟩⟩, ⟨200, some ⟨1⟩⟩, ⟨250, some ⟨150⟩⟩]

/-! ## Vocabulary of the statements -/

/-- The struct pid `p` is the live entry of the namespace for its number. -/
def live (ns : List struct_pid) (p : struct_pid) : Prop :=
  idr_find ns p.nr = some p

instance (ns : List struct_pid) (p : struct_pid) : Decidable (live ns p) :=
  inferInstanceAs (Decidable (idr_find ns p.nr = some p))

/-- Neither `p`'s number nor the number of the real parent of `p`'s task is in
the registry, and `p` has a task. -/
def shown (hidden_proc : List Int) (p : struct_pid) : Prop :=
  p.nr ∉ hidden_proc ∧ ∃ t, p.task = some t ∧ t.real_parent_pid ∉ hidden_proc

/-- The process `b` is a direct child of `a`: the real parent of `b`'s task has
`a`'s number. -/
def is_child (a b : struct_pid) : Prop :=
  ∃ t, b.task = some t ∧ t.real_parent_pid = a.nr

/-- The process `b` is a descendant of `a` in the namespace: a chain of live
processes leads from `a` to `b`, each the real parent of the next. -/
def descendant (ns : List struct_pid) (a b : struct_pid) : Prop :=
  Relation.TransGen (fun x y => live ns x ∧ live ns y ∧ is_child x y) a b

/-- The address lies in the init range or in the core range of the module. -/
def inside_module (mod : struct_module) (addr : Nat) : Prop :=
  (mod.init_base ≤ addr ∧ addr < mod.init_base + mod.init_size) ∨
    (mod.core_base ≤ addr ∧ addr < mod.core_base + mod.core_size)

instance (mod : struct_module) (addr : Nat) : Decidable (inside_module mod addr) :=
  inferInstanceAs (Decidable ((mod.init_base ≤ addr ∧ addr < mod.init_base + mod.init_size) ∨
    (mod.core_base ≤ addr ∧ addr < mod.core_base + mod.core_size)))

/-! ## Lemmas on the registry and the IDR -/

theorem is_hidden_proc_iff (hidden_proc : List Int) (pid : Int) :
    is_hidden_proc hidden_proc pid = true ↔ pid ∈ hidden_proc := by
  induction hidden_proc with
  | nil => simp [is_hidden_proc]
  | cons a l ih =>
    by_cases h : a = pid
    · simp [is_hidden_proc, h]
    · have h2 : ¬ pid = a := fun e => h e.symm
      simp [is_hidden_proc, h, h2, ih]

theorem hook_skip_false_iff (hidden_proc : List Int) (p : struct_pid) :
    hook_skip hidden_proc p = false ↔ shown hidden_proc p := by
  unfold hook_skip shown
  by_cases h1 : is_hidden_proc hidden_proc p.nr = true
  · have := (is_hidden_proc_iff hidden_proc p.nr).1 h1
    simp [h1, this]
  · have h1m : p.nr ∉ hidden_proc := fun hm => h1 ((is_hidden_proc_iff _ _).2 hm)
    cases ht : p.task with
    | none => simp [h1, h1m]
    | some t =>
      by_cases h2 : is_hidden_proc hidden_proc t.real_parent_pid = true
      · have := (is_hidden_proc_iff hidden_proc t.real_parent_pid).1 h2
        simp [h1, h1m, h2, this]
      · have h2m : t.real_parent_pid ∉ hidden_proc :=
          fun hm => h2 ((is_hidden_proc_iff _ _).2 hm)
        simp [h1, h1m, h2, h2m]

theorem live_mem {ns : List struct_pid} {p : struct_pid} (h : live ns p) : p ∈ ns :=
  List.mem_of_find?_eq_some h

theorem live_unique {ns : List struct_pid} {p q : struct_pid}
    (hp : live ns p) (hq : live ns q) (h : p.nr = q.nr) : p = q := by
  unfold live at hp hq
  rw [h] at hp
  rw [hp] at hq
  exact Option.some.inj hq

theorem idr_get_next_none {ns : List struct_pid} {nr : Int}
    (h : idr_get_next ns nr = none) : ∀ r ∈ ns, r.nr < nr := by
  induction ns with
  | nil => simp
  | cons p rest ih =>
    unfold idr_get_next at h
    cases hr : idr_get_next rest nr with
    | none =>
      rw [hr] at h
      by_cases hp : nr ≤ p.nr
      · simp [hp] at h
      · intro r hrm
        rcases List.mem_cons.1 hrm with e | e
        · subst e; omega
        · exact ih hr r e
    | some q =>
      rw [hr] at h
      by_cases hc : nr ≤ p.nr ∧ p.nr ≤ q.nr
      · simp [hc] at h
      · simp [hc] at h

theorem idr_get_next_some {ns : List struct_pid} {nr : Int} {q : struct_pid}
    (h : idr_get_next ns nr = some q) :
    live ns q ∧ nr ≤ q.nr ∧ ∀ r ∈ ns, nr ≤ r.nr → q.nr ≤ r.nr := by
  induction ns generalizing q with
  | nil => simp [idr_get_next] at h
  | cons p rest ih =>
    unfold idr_get_next at h
    cases hr : idr_get_next rest nr with
    | none =>
      rw [hr] at h
      have hlt := idr_get_next_none hr
      by_cases hp : nr ≤ p.nr
      · simp [hp] at h
        subst h
        refine ⟨by simp [live, idr_find], hp, ?_⟩
        intro r hrm hge
        rcases List.mem_cons.1 hrm with e | e
        · subst e; exact le_refl _
        · have := hlt r e; omega
      · simp [hp] at h
    | some q0 =>
      rw [hr] at h
      obtain ⟨hl0, hge0, hmin0⟩ := ih hr
      by_cases hc : nr ≤ p.nr ∧ p.nr ≤ q0.nr
      · simp [hc] at h
        subst h
        refine ⟨by simp [live, idr_find], hc.1, ?_⟩
        intro r hrm hge
        rcases List.mem_cons.1 hrm with e | e
        · subst e; exact le_refl _
        · have := hmin0 r e hge; omega
      · simp only [if_neg hc] at h
        have hq : q0 = q := Option.some.inj h
        subst hq
        have hne : ¬ p.nr = q0.nr := by
          intro e
          apply hc
          omega
        refine ⟨?_, hge0, ?_⟩
        · unfold live idr_find
          rw [List.find?_cons_of_neg _ (by simpa using hne)]
          exact hl0
        · intro r hrm hge
          rcases List.mem_cons.1 hrm with e | e
          · subst e
            by_contra hlt
            apply hc
            exact ⟨hge, by omega⟩
          · exact hmin0 r e hge

theorem countP_ge_le (ns : List struct_pid) {b c : Int} (hbc : b ≤ c) :
    ns.countP (fun p => decide (c ≤ p.nr)) ≤ ns.countP (fun p => decide (b ≤ p.nr)) := by
  apply List.countP_mono_left
  intro x _ hx
  have : c ≤ x.nr := by simpa using hx
  simpa using le_trans hbc this

theorem countP_ge_lt {ns : List struct_pid} {b c : Int} {p : struct_pid}
    (hp : p ∈ ns) (hb : b ≤ p.nr) (hc : p.nr < c) :
    ns.countP (fun p => decide (c ≤ p.nr)) < ns.countP (fun p => decide (b ≤ p.nr)) := by
  have hbc : b ≤ c := by omega
  induction ns with
  | nil => simp at hp
  | cons a l ih =>
    have hmono := countP_ge_le l hbc
    rw [List.countP_cons, List.countP_cons]
    rcases List.mem_cons.1 hp with e | e
    · subst e
      have h1 : decide (c ≤ p.nr) = false := by simpa using hc
      have h2 : decide (b ≤ p.nr) = true := by simpa using hb
      simp only [h1, h2]
      simp
      omega
    · have := ih e
      by_cases hca : c ≤ a.nr
      · have hba : b ≤ a.nr := le_trans hbc hca
        simp [hca, hba]
        omega
      · by_cases hba : b ≤ a.nr
        · simp [hca, hba]; omega
        · simp [hca, hba]; omega

/-! ## The loop of the filter on a namespace -/

/-- What the loop of `hook_find_ge_pid` yields when entered with the candidate
for the lower bound `b`, given fuel for every entry at or above `b`. -/
theorem hook_loop_spec (hidden_proc : List Int) (ns : List struct_pid) :
    ∀ (n : Nat) (b : Int), ns.countP (fun p => decide (b ≤ p.nr)) ≤ n →
      ∃ r, hook_loop (real_find_ge_pid ns) hidden_proc n (real_find_ge_pid ns b) = some r ∧
        (∀ p, r = some p →
          live ns p ∧ b ≤ p.nr ∧ shown hidden_proc p ∧
            ∀ q, live ns q → b ≤ q.nr → shown hidden_proc q → p.nr ≤ q.nr) ∧
        (r = none → ∀ q, live ns q → b ≤ q.nr → ¬ shown hidden_proc q) := by
  intro n
  induction n with
  | zero =>
    intro b hn
    cases hreal : real_find_ge_pid ns b with
    | none =>
      refine ⟨none, by simp [hook_loop], by simp, ?_⟩
      intro _ q hq hb
      have := idr_get_next_none hreal q (live_mem hq)
      omega
    | some p =>
      obtain ⟨hl, hge, _⟩ := idr_get_next_some hreal
      have : 0 < ns.countP (fun p => decide (b ≤ p.nr)) :=
        List.countP_pos_iff.2 ⟨p, live_mem hl, by simpa using hge⟩
      omega
  | succ n ih =>
    intro b hn
    cases hreal : real_find_ge_pid ns b with
    | none =>
      refine ⟨none, by simp [hook_loop], by simp, ?_⟩
      intro _ q hq hb
      have := idr_get_next_none hreal q (live_mem hq)
      omega
    | some p =>
      obtain ⟨hl, hge, hmin⟩ := idr_get_next_some hreal
      cases hs : hook_skip hidden_proc p with
      | false =>
        have hsh := (hook_skip_false_iff hidden_proc p).1 hs
        refine ⟨some p, by simp [hook_loop, hs], ?_, by simp⟩
        intro p' hp'
        have e : p = p' := Option.some.inj hp'
        subst e
        exact ⟨hl, hge, hsh, fun q hq hb _ => hmin q (live_mem hq) hb⟩
      | true =>
        have hnsh : ¬ shown hidden_proc p := by
          intro hsh
          rw [(hook_skip_false_iff hidden_proc p).2 hsh] at hs
          exact Bool.noConfusion hs
        have hlt := countP_ge_lt (live_mem hl) hge (show p.nr < p.nr + 1 by omega)
        obtain ⟨r, hr, hsome, hnone⟩ := ih (p.nr + 1) (by omega)
        refine ⟨r, by simp [hook_loop, hs, hr], ?_, ?_⟩
        · intro p' hp'
          obtain ⟨h1, h2, h3, h4⟩ := hsome p' hp'
          refine ⟨h1, by omega, h3, ?_⟩
          intro q hq hb hqs
          by_cases hq1 : p.nr + 1 ≤ q.nr
          · exact h4 q hq hq1 hqs
          · have hpq := hmin q (live_mem hq) hb
            have e : p = q := live_unique hl hq (by omega)
            subst e
            exact absurd hqs hnsh
        · intro hrn q hq hb hqs
          by_cases hq1 : p.nr + 1 ≤ q.nr
          · exact hnone hrn q hq hq1 hqs
          · have hpq := hmin q (live_mem hq) hb
            have e : p = q := live_unique hl hq (by omega)
            subst e
            exact absurd hqs hnsh

theorem hook_find_ge_pid_spec (hidden_proc : List Int) (ns : List struct_pid) (nr : Int) :
    ∃ r, hook_find_ge_pid hidden_proc ns nr = some r ∧
      (∀ p, r = some p →
        live ns p ∧ nr ≤ p.nr ∧ shown hidden_proc p ∧
          ∀ q, live ns q → nr ≤ q.nr → shown hidden_proc q → p.nr ≤ q.nr) ∧
      (r = none → ∀ q, live ns q → nr ≤ q.nr → ¬ shown hidden_proc q) :=
  hook_loop_spec hidden_proc ns ns.length nr (List.countP_le_length _)

/-- Whatever the original primitive and the fuel, a candidate the loop is left
with passed the three tests. -/
theorem hook_loop_shown (real : Int → Option struct_pid) (hidden_proc : List Int) :
    ∀ (n : Nat) (c : Option struct_pid) (p : struct_pid),
      hook_loop real hidden_proc n c = some (some p) → shown hidden_proc p := by
  intro n
  induction n with
  | zero =>
    intro c p h
    cases c with
    | none => simp [hook_loop] at h
    | some x => simp [hook_loop] at h
  | succ n ih =>
    intro c p h
    cases c with
    | none => simp [hook_loop] at h
    | some x =>
      cases hs : hook_skip hidden_proc x with
      | true =>
        simp only [hook_loop, hs, if_true] at h
        exact ih _ p h
      | false =>
        simp [hook_loop, hs] at h
        subst h
        exact (hook_skip_false_iff hidden_proc x).1 hs

/-! ## Properties of the filter -/

/-- C1. With the original primitive yielding the least live identifier at or
above its lower bound, `hook_find_ge_pid(nr)` returns, and what it returns is
the least live `p` with `p >= nr` whose number is not in the registry, that
has a task, and whose task's real parent's number is not in the registry; it
returns none exactly when there is no such `p`. -/
theorem hook_find_ge_pid_least (hidden_proc : List Int) (ns : List struct_pid) (nr : Int) :
    ∃ r, hook_find_ge_pid hidden_proc ns nr = some r ∧
      (∀ p, r = some p ↔
        (live ns p ∧ nr ≤ p.nr ∧
          (p.nr ∉ hidden_proc ∧ ∃ t, p.task = some t ∧ t.real_parent_pid ∉ hidden_proc) ∧
          ∀ q, live ns q → nr ≤ q.nr →
            (q.nr ∉ hidden_proc ∧ ∃ t, q.task = some t ∧ t.real_parent_pid ∉ hidden_proc) →
            p.nr ≤ q.nr)) ∧
      (r = none ↔
        ¬ ∃ q, live ns q ∧ nr ≤ q.nr ∧
          (q.nr ∉ hidden_proc ∧ ∃ t, q.task = some t ∧ t.real_parent_pid ∉ hidden_proc)) := by
  obtain ⟨r, hr, hsome, hnone⟩ := hook_find_ge_pid_spec hidden_proc ns nr
  refine ⟨r, hr, ?_, ?_⟩
  · intro p
    constructor
    · exact hsome p
    · rintro ⟨hl, hge, hsh, hmin⟩
      cases r with
      | none => exact absurd hsh (hnone rfl p hl hge)
      | some p0 =>
        obtain ⟨hl0, hge0, hsh0, hmin0⟩ := hsome p0 rfl
        have h1 := hmin p0 hl0 hge0 hsh0
        have h2 := hmin0 p hl hge hsh
        rw [live_unique hl0 hl (by omega)]
  · constructor
    · rintro hrn ⟨q, hq, hge, hsh⟩
      exact hnone hrn q hq hge hsh
    · intro hno
      cases r with
      | none => rfl
      | some p0 =>
        obtain ⟨hl0, hge0, hsh0, _⟩ := hsome p0 rfl
        exact absurd ⟨p0, hl0, hge0, hsh0⟩ hno

theorem walk_spec (hidden_proc : List Int) (ns : List struct_pid) :
    ∀ (n : Nat) (b : Int), ns.countP (fun p => decide (b ≤ p.nr)) < n →
      ∃ l, walk hidden_proc ns n b = some l ∧
        l.Pairwise (fun x y => x.nr < y.nr) ∧
        ∀ p, p ∈ l ↔ (live ns p ∧ b ≤ p.nr ∧ shown hidden_proc p) := by
  intro n
  induction n with
  | zero => intro b h; omega
  | succ n ih =>
    intro b hn
    obtain ⟨r, hr, hsome, hnone⟩ := hook_find_ge_pid_spec hidden_proc ns b
    cases r with
    | none =>
      refine ⟨[], by simp [walk, hr], List.Pairwise.nil, ?_⟩
      intro p
      constructor
      · intro h; simp at h
      · rintro ⟨hl, hge, hsh⟩
        exact absurd hsh (hnone rfl p hl hge)
    | some p0 =>
      obtain ⟨hl0, hge0, hsh0, hmin0⟩ := hsome p0 rfl
      have hlt := countP_ge_lt (live_mem hl0) hge0 (show p0.nr < p0.nr + 1 by omega)
      obtain ⟨l, hw, hpw, hmem⟩ := ih (p0.nr + 1) (by omega)
      refine ⟨p0 :: l, by simp [walk, hr, hw], ?_, ?_⟩
      · refine List.Pairwise.cons ?_ hpw
        intro q hq
        have := ((hmem q).1 hq).2.1
        omega
      · intro q
        rw [List.mem_cons, hmem q]
        constructor
        · rintro (e | ⟨h1, h2, h3⟩)
          · subst e; exact ⟨hl0, hge0, hsh0⟩
          · exact ⟨h1, by omega, h3⟩
        · rintro ⟨h1, h2, h3⟩
          have hle := hmin0 q h1 h2 h3
          by_cases he : p0.nr = q.nr
          · exact Or.inl (live_unique hl0 h1 he).symm
          · exact Or.inr ⟨h1, by omega, h3⟩

/-- C2. In a namespace where every live process has a task, the walk from a
lower bound `b` ends and yields exactly the live processes `p` with
`p.nr >= b` whose number and whose parent's number are not in the registry,
each once, in strictly increasing order of number. -/
theorem enumerate_filtered (hidden_proc : List Int) (ns : List struct_pid) (b : Int)
    (htask : ∀ p, live ns p → p.task ≠ none) :
    ∃ l, enumerate hidden_proc ns b = some l ∧
      l.Pairwise (fun x y => x.nr < y.nr) ∧ l.Nodup ∧
      ∀ p, p ∈ l ↔
        (live ns p ∧ b ≤ p.nr ∧ p.nr ∉ hidden_proc ∧
          ∀ t, p.task = some t → t.real_parent_pid ∉ hidden_proc) := by
  obtain ⟨l, hw, hpw, hmem⟩ := walk_spec hidden_proc ns (ns.length + 1) b
    (Nat.lt_succ_of_le (List.countP_le_length _))
  refine ⟨l, hw, hpw, ?_, ?_⟩
  · refine hpw.imp ?_
    intro x y hxy e
    rw [e] at hxy
    exact lt_irrefl _ hxy
  · intro p
    rw [hmem p]
    constructor
    · rintro ⟨h1, h2, h3, t, ht, h4⟩
      refine ⟨h1, h2, h3, ?_⟩
      intro t' ht'
      rw [ht] at ht'
      rw [← Option.some.inj ht']
      exact h4
    · rintro ⟨h1, h2, h3, h4⟩
      cases ht : p.task with
      | none => exact absurd ht (htask p h1)
      | some t => exact ⟨h1, h2, h3, t, ht, h4 t ht⟩

/-- C3. If `A`'s number is in the registry and `B` is a direct child of `A`,
`hook_find_ge_pid` does not return `B`, whatever the start value and whether
or not `B`'s own number is in the registry. -/
theorem child_of_hidden_omitted (hidden_proc : List Int) (ns : List struct_pid) (nr : Int)
    (A B : struct_pid) (hA : A.nr ∈ hidden_proc) (hAB : is_child A B) :
    hook_find_ge_pid hidden_proc ns nr ≠ some (some B) := by
  intro h
  obtain ⟨_, t, ht, hpar⟩ := hook_loop_shown _ hidden_proc _ _ B h
  obtain ⟨t', ht', hpar'⟩ := hAB
  rw [ht] at ht'
  have e : t = t' := Option.some.inj ht'
  subst e
  rw [hpar'] at hpar
  exact hpar hA

/-- C4, amended. A live process is left out by `hook_find_ge_pid` at every
start value exactly when its own number is in the registry, or it has no
task, or the number of its task's real parent is in the registry; ancestors
further up the chain play no part. -/
theorem omitted_iff_depth_one (hidden_proc : List Int) (ns : List struct_pid)
    (p : struct_pid) (hl : live ns p) :
    (∀ nr, hook_find_ge_pid hidden_proc ns nr ≠ some (some p)) ↔
      (p.nr ∈ hidden_proc ∨ p.task = none ∨
        ∃ t, p.task = some t ∧ t.real_parent_pid ∈ hidden_proc) := by
  constructor
  · intro hom
    by_contra hno
    push_neg at hno
    obtain ⟨h1, h2, h3⟩ := hno
    have hsh : shown hidden_proc p := by
      refine ⟨h1, ?_⟩
      cases ht : p.task with
      | none => exact absurd ht h2
      | some t => exact ⟨t, rfl, h3 t ht⟩
    obtain ⟨r, hr, hsome, hnone⟩ := hook_find_ge_pid_spec hidden_proc ns p.nr
    cases r with
    | none => exact hnone rfl p hl (le_refl _) hsh
    | some p0 =>
      obtain ⟨hl0, hge0, _, hmin0⟩ := hsome p0 rfl
      have := hmin0 p hl (le_refl _) hsh
      have e : p0 = p := live_unique hl0 hl (by omega)
      rw [e] at hr
      exact hom p.nr hr
  · intro hcase nr h
    obtain ⟨h1, t, ht, h2⟩ := hook_loop_shown _ hidden_proc _ _ p h
    rcases hcase with h' | h' | ⟨t', ht', h'⟩
    · exact h1 h'
    · rw [ht] at h'; exact Option.noConfusion h'
    · rw [ht] at ht'
      rw [Option.some.inj ht'] at h2
      exact h2 h'

theorem ns_sample_tasks : ∀ p, live ns_sample p → p.task ≠ none := by
  intro p hl
  have hm := live_mem hl
  simp only [ns_sample, List.mem_cons, List.mem_singleton, List.not_mem_nil, or_false] at hm
  rcases hm with e | e | e | e | e <;> subst e <;> simp

/-- Witness of C2: with 100 in the registry, the walk over the sample namespace
yields 50, 200 and 250 (150 is a child of 100, 250 a grandchild). -/
theorem enumerate_filtered_witness :
    enumerate [100] ns_sample 0
        = some [⟨50, some ⟨1⟩⟩, ⟨200, some ⟨1⟩⟩, ⟨250, some ⟨150⟩⟩] ∧
      ∃ l, enumerate [100] ns_sample 0 = some l ∧
        l.Pairwise (fun x y => x.nr < y.nr) ∧ l.Nodup ∧
        ∀ p, p ∈ l ↔
          (live ns_sample p ∧ 0 ≤ p.nr ∧ p.nr ∉ [100] ∧
            ∀ t, p.task = some t → t.real_parent_pid ∉ [100]) :=
  ⟨by decide, enumerate_filtered [100] ns_sample 0 ns_sample_tasks⟩

/-- Witness of C3: 100 is in the registry, 150 is its child and is not in the
registry, and the filter started at 150 does not return it. -/
theorem child_of_hidden_omitted_witness :
    (100 : Int) ∈ [100] ∧ (150 : Int) ∉ [100] ∧
      is_child ⟨100, some ⟨1⟩⟩ ⟨150, some ⟨100⟩⟩ ∧
      hook_find_ge_pid [100] ns_sample 150 ≠ some (some ⟨150, some ⟨100⟩⟩) :=
  ⟨by decide, by decide, ⟨⟨100⟩, rfl, rfl⟩,
    child_of_hidden_omitted [100] ns_sample 150 ⟨100, some ⟨1⟩⟩ ⟨150, some ⟨100⟩⟩
      (by decide) ⟨⟨100⟩, rfl, rfl⟩⟩

/-- C4 fails as stated: with 100 in the registry, 250 is a descendant of 100
(through 150) and the filter started at 201 returns it. -/
theorem descendant_returned :
    ¬ ∀ (hidden_proc : List Int) (ns : List struct_pid) (nr : Int) (A B : struct_pid),
        A.nr ∈ hidden_proc → descendant ns A B →
          hook_find_ge_pid hidden_proc ns nr ≠ some (some B) := by
  intro h
  have hd : descendant ns_sample ⟨100, some ⟨1⟩⟩ ⟨250, some ⟨150⟩⟩ := by
    have s1 : live ns_sample ⟨100, some ⟨1⟩⟩ ∧ live ns_sample ⟨150, some ⟨100⟩⟩ ∧
        is_child ⟨100, some ⟨1⟩⟩ ⟨150, some ⟨100⟩⟩ :=
      ⟨by decide, by decide, ⟨⟨100⟩, rfl, rfl⟩⟩
    have s2 : live ns_sample ⟨150, some ⟨100⟩⟩ ∧ live ns_sample ⟨250, some ⟨150⟩⟩ ∧
        is_child ⟨150, some ⟨100⟩⟩ ⟨250, some ⟨150⟩⟩ :=
      ⟨by decide, by decide, ⟨⟨150⟩, rfl, rfl⟩⟩
    unfold descendant
    exact Relation.TransGen.tail (Relation.TransGen.single s1) s2
  exact h [100] ns_sample 201 ⟨100, some ⟨1⟩⟩ ⟨250, some ⟨150⟩⟩ (by decide) hd (by decide)

/-- Witness of C4 as amended: in the sample namespace with 100 in the registry,
150 (a child of 100) is left out at every start value. -/
theorem omitted_iff_depth_one_witness :
    live ns_sample ⟨150, some ⟨100⟩⟩ ∧
      ((∀ nr, hook_find_ge_pid [100] ns_sample nr ≠ some (some ⟨150, some ⟨100⟩⟩)) ↔
        ((150 : Int) ∈ [100] ∨ (some (⟨100⟩ : task_struct)) = none ∨
          ∃ t, some (⟨100⟩ : task_struct) = some t ∧ t.real_parent_pid ∈ [100])) :=
  ⟨by decide, omitted_iff_depth_one [100] ns_sample ⟨150, some ⟨100⟩⟩ (by decide)⟩

/-! ## Termination of the loop over an arbitrary original primitive -/

theorem hook_loop_none (real : Int → Option struct_pid) (hidden_proc : List Int) (n : Nat) :
    hook_loop real hidden_proc n none = some none := by
  cases n <;> rfl

theorem card_ge_lt {S : Finset Int} {b c x : Int} (hx : x ∈ S) (hb : b ≤ x) (hc : x < c) :
    (S.filter (fun y => c ≤ y)).card < (S.filter (fun y => b ≤ y)).card := by
  apply Finset.card_lt_card
  rw [Finset.ssubset_iff_of_subset]
  · refine ⟨x, by simp [hx, hb], ?_⟩
    simp only [Finset.mem_filter, not_and, not_le]
    intro _
    exact hc
  · intro y hy
    simp only [Finset.mem_filter] at hy ⊢
    exact ⟨hy.1, by omega⟩

theorem hook_loop_terminates (real : Int → Option struct_pid) (S : Finset Int)
    (hge : ∀ nr p, real nr = some p → nr ≤ p.nr)
    (hS : ∀ nr p, real nr = some p → p.nr ∈ S) (hidden_proc : List Int) :
    ∀ (n : Nat) (b : Int), (S.filter (fun y => b ≤ y)).card ≤ n →
      ∃ r, ∀ m, n ≤ m → hook_loop real hidden_proc m (real b) = some r := by
  intro n
  induction n with
  | zero =>
    intro b hn
    cases hreal : real b with
    | none => exact ⟨none, fun m _ => hook_loop_none real hidden_proc m⟩
    | some p =>
      have : 0 < (S.filter (fun y => b ≤ y)).card :=
        Finset.card_pos.2 ⟨p.nr, by simp [hS b p hreal, hge b p hreal]⟩
      omega
  | succ n ih =>
    intro b hn
    cases hreal : real b with
    | none => exact ⟨none, fun m _ => hook_loop_none real hidden_proc m⟩
    | some p =>
      cases hs : hook_skip hidden_proc p with
      | false =>
        refine ⟨some p, ?_⟩
        intro m hm
        obtain ⟨k, rfl⟩ : ∃ k, m = k + 1 := ⟨m - 1, by omega⟩
        simp [hook_loop, hs]
      | true =>
        have hlt := card_ge_lt (hS b p hreal) (hge b p hreal) (show p.nr < p.nr + 1 by omega)
        obtain ⟨r, hr⟩ := ih (p.nr + 1) (by omega)
        refine ⟨r, ?_⟩
        intro m hm
        obtain ⟨k, rfl⟩ : ∃ k, m = k + 1 := ⟨m - 1, by omega⟩
        simp only [hook_loop, hs, if_true]
        exact hr k (by omega)

theorem hook_retries_increasing (real : Int → Option struct_pid)
    (hge : ∀ nr p, real nr = some p → nr ≤ p.nr) (hidden_proc : List Int) :
    ∀ (n : Nat) (c : Option struct_pid) (lo : Int), (∀ p, c = some p → lo ≤ p.nr) →
      (lo :: hook_retries real hidden_proc n c).Pairwise (fun x y => x < y) := by
  intro n
  induction n with
  | zero =>
    intro c lo _
    cases c <;> simp [hook_retries]
  | succ n ih =>
    intro c lo hlo
    cases c with
    | none => simp [hook_retries]
    | some p =>
      cases hs : hook_skip hidden_proc p with
      | false => simp [hook_retries, hs]
      | true =>
        simp only [hook_retries, hs, if_true]
        have hrec := ih (real (p.nr + 1)) (p.nr + 1) (fun q hq => hge _ q hq)
        have hp := hlo p rfl
        rw [List.pairwise_cons] at hrec ⊢
        refine ⟨?_, List.pairwise_cons.2 hrec⟩
        intro x hx
        rcases List.mem_cons.1 hx with e | e
        · omega
        · have := hrec.1 x e
          omega

/-- C5. Over any original primitive that yields only identifiers of a finite
set `S`, each at or above the lower bound it was given, the loop of
`hook_find_ge_pid` ends for every start value and registry: with fuel for
`S.card` iterations or more it returns one and the same result. The lower
bounds of the successive calls of the primitive (the start value, then
candidate number plus one at each retry) are strictly increasing. -/
theorem hook_find_ge_pid_terminates (real : Int → Option struct_pid) (S : Finset Int)
    (hge : ∀ nr p, real nr = some p → nr ≤ p.nr)
    (hS : ∀ nr p, real nr = some p → p.nr ∈ S)
    (hidden_proc : List Int) (nr : Int) :
    (∃ r, ∀ fuel, S.card ≤ fuel → hook_find_ge_pid_fuel real hidden_proc fuel nr = some r) ∧
      ∀ fuel, (nr :: hook_retries real hidden_proc fuel (real nr)).Pairwise
        (fun x y => x < y) := by
  constructor
  · exact hook_loop_terminates real S hge hS hidden_proc S.card nr
      (Finset.card_le_card (Finset.filter_subset _ _))
  · intro fuel
    exact hook_retries_increasing real hge hidden_proc fuel (real nr) nr
      (fun p hp => hge nr p hp)

theorem real_find_ge_pid_ge (ns : List struct_pid) :
    ∀ nr p, real_find_ge_pid ns nr = some p → nr ≤ p.nr :=
  fun _ _ h => (idr_get_next_some h).2.1

theorem real_find_ge_pid_mem (ns : List struct_pid) :
    ∀ nr p, real_find_ge_pid ns nr = some p → p.nr ∈ (ns.map (fun q => q.nr)).toFinset := by
  intro nr p h
  rw [List.mem_toFinset]
  exact List.mem_map.2 ⟨p, live_mem (idr_get_next_some h).1, rfl⟩

/-- Witness of C5: the sample namespace with 50, 100 and 150 in the registry;
from 0 the loop retries at 51, 101 and 151 and returns 200. -/
theorem hook_find_ge_pid_terminates_witness :
    hook_find_ge_pid_fuel (real_find_ge_pid ns_sample) [50, 100, 150] 5 0
        = some (some ⟨200, some ⟨1⟩⟩) ∧
      hook_retries (real_find_ge_pid ns_sample) [50, 100, 150] 5 (real_find_ge_pid ns_sample 0)
        = [51, 101, 151] ∧
      ((∃ r, ∀ fuel, ((ns_sample.map (fun q => q.nr)).toFinset).card ≤ fuel →
          hook_find_ge_pid_fuel (real_find_ge_pid ns_sample) [50, 100, 150] fuel 0 = some r) ∧
        ∀ fuel, (0 :: hook_retries (real_find_ge_pid ns_sample) [50, 100, 150] fuel
          (real_find_ge_pid ns_sample 0)).Pairwise (fun x y => x < y)) := by
  have h := hook_find_ge_pid_terminates (real_find_ge_pid ns_sample)
    ((ns_sample.map (fun q => q.nr)).toFinset)
    (real_find_ge_pid_ge ns_sample) (real_find_ge_pid_mem ns_sample) [50, 100, 150] 0
  exact ⟨by decide, by decide, h⟩

/-! ## Properties of the registry -/

theorem unhide_process_eq_filter (hidden_proc : List Int) (pid : Int) :
    unhide_process hidden_proc pid = hidden_proc.filter (fun x => decide (x ≠ pid)) := by
  induction hidden_proc with
  | nil => rfl
  | cons a l ih =>
    by_cases h : a = pid
    · simp [unhide_process, h, ih]
    · simp [unhide_process, h, ih]

theorem mem_unhide_process (hidden_proc : List Int) (pid x : Int) :
    x ∈ unhide_process hidden_proc pid ↔ x ∈ hidden_proc ∧ x ≠ pid := by
  rw [unhide_process_eq_filter]
  simp [List.mem_filter]

theorem mem_hide_process (hidden_proc : List Int) (pid x : Int) :
    x ∈ hide_process hidden_proc pid ↔ x ∈ hidden_proc ∨ x = pid := by
  simp [hide_process]

theorem unmatched_hide_cons (op : registry_op) (ops : List registry_op) (x : Int) :
    (∃ pre post, op :: ops = pre ++ registry_op.hide x :: post ∧
        registry_op.unhide x ∉ post) ↔
      (op = registry_op.hide x ∧ registry_op.unhide x ∉ ops) ∨
        ∃ pre post, ops = pre ++ registry_op.hide x :: post ∧
          registry_op.unhide x ∉ post := by
  constructor
  · rintro ⟨pre, post, he, hn⟩
    cases pre with
    | nil =>
      simp only [List.nil_append, List.cons.injEq] at he
      obtain ⟨h1, h2⟩ := he
      subst h1 h2
      exact Or.inl ⟨rfl, hn⟩
    | cons a pre' =>
      simp only [List.cons_append, List.cons.injEq] at he
      exact Or.inr ⟨pre', post, he.2, hn⟩
  · rintro (⟨h1, h2⟩ | ⟨pre, post, he, hn⟩)
    · exact ⟨[], ops, by simp [h1], h2⟩
    · exact ⟨op :: pre, post, by simp [he], hn⟩

theorem mem_replay (ops : List registry_op) :
    ∀ (hidden_proc : List Int) (x : Int),
      x ∈ replay ops hidden_proc ↔
        (∃ pre post, ops = pre ++ registry_op.hide x :: post ∧
            registry_op.unhide x ∉ post) ∨
          (x ∈ hidden_proc ∧ registry_op.unhide x ∉ ops) := by
  induction ops with
  | nil =>
    intro L x
    simp [replay]
  | cons op ops ih =>
    intro L x
    have hstep : replay (op :: ops) L = replay ops (apply_op L op) := rfl
    rw [hstep, ih (apply_op L op) x, unmatched_hide_cons]
    cases op with
    | hide y =>
      have e1 : (registry_op.hide y = registry_op.hide x) ↔ y = x := by simp
      have e2 : registry_op.unhide x ∉ registry_op.hide y :: ops ↔
          registry_op.unhide x ∉ ops := by simp
      rw [e1, e2]
      simp only [apply_op, mem_hide_process]
      constructor
      · rintro (h | ⟨h1 | h1, h2⟩)
        · exact Or.inl (Or.inr h)
        · exact Or.inr ⟨h1, h2⟩
        · exact Or.inl (Or.inl ⟨h1.symm, h2⟩)
      · rintro ((⟨h1, h2⟩ | h) | ⟨h1, h2⟩)
        · exact Or.inr ⟨Or.inr h1.symm, h2⟩
        · exact Or.inl h
        · exact Or.inr ⟨Or.inl h1, h2⟩
    | unhide y =>
      have e1 : ¬ (registry_op.unhide y = registry_op.hide x) := by simp
      have e2 : registry_op.unhide x ∉ registry_op.unhide y :: ops ↔
          (x ≠ y ∧ registry_op.unhide x ∉ ops) := by simp
      rw [e2]
      simp only [apply_op, mem_unhide_process]
      constructor
      · rintro (h | ⟨⟨h1, h3⟩, h2⟩)
        · exact Or.inl (Or.inr h)
        · exact Or.inr ⟨h1, h3, h2⟩
      · rintro ((⟨h1, _⟩ | h) | ⟨h1, h3, h2⟩)
        · exact absurd h1 e1
        · exact Or.inl h
        · exact Or.inr ⟨⟨h1, h3⟩, h2⟩

/-- C6. After any sequence of `hide_process` / `unhide_process` calls on an
empty registry, `is_hidden_proc(x)` is true if and only if the sequence has a
`hide_process(x)` with no `unhide_process(x)` after it. -/
theorem is_hidden_proc_replay (ops : List registry_op) (x : Int) :
    is_hidden_proc (replay ops []) x = true ↔
      ∃ pre post, ops = pre ++ registry_op.hide x :: post ∧
        registry_op.unhide x ∉ post := by
  rw [is_hidden_proc_iff, mem_replay]
  simp

/-- C7. `unhide_process(id)` leaves a registry without `id` unchanged, and a
second `unhide_process(id)` changes nothing after the first. -/
theorem unhide_process_idempotent (hidden_proc : List Int) (id : Int) :
    (id ∉ hidden_proc → unhide_process hidden_proc id = hidden_proc) ∧
      unhide_process (unhide_process hidden_proc id) id = unhide_process hidden_proc id := by
  constructor
  · intro h
    rw [unhide_process_eq_filter, List.filter_eq_self]
    intro a ha
    have : a ≠ id := fun e => h (e ▸ ha)
    simpa using this
  · rw [unhide_process_eq_filter, unhide_process_eq_filter, List.filter_filter]
    simp

/-- Witness of C7: 5 does not occur in `[7, 3, 7]`; removing 7 twice is removing
it once. -/
theorem unhide_process_idempotent_witness :
    unhide_process [7, 3, 7] 5 = [7, 3, 7] ∧
      unhide_process (unhide_process [7, 3, 7] 7) 7 = [3] ∧
      unhide_process [7, 3, 7] 7 = [3] :=
  ⟨(unhide_process_idempotent [7, 3, 7] 5).1 (by decide),
    by decide, by decide⟩

/-- C8. `unhide_process(id)` yields the registry with every entry equal to `id`
removed: `id` no longer occurs, every other value keeps its number of
occurrences, and the remaining entries keep their relative order. -/
theorem unhide_process_removes_all (hidden_proc : List Int) (id : Int) :
    unhide_process hidden_proc id = hidden_proc.filter (fun x => decide (x ≠ id)) ∧
      id ∉ unhide_process hidden_proc id ∧
      (∀ x, x ≠ id → (unhide_process hidden_proc id).count x = hidden_proc.count x) ∧
      (unhide_process hidden_proc id).Sublist hidden_proc := by
  refine ⟨unhide_process_eq_filter hidden_proc id, ?_, ?_, ?_⟩
  · intro h
    exact ((mem_unhide_process hidden_proc id id).1 h).2 rfl
  · intro x hx
    rw [unhide_process_eq_filter, List.count_filter]
    simpa using hx
  · rw [unhide_process_eq_filter]
    exact List.filter_sublist _

/-! ## Properties of the control surface -/

theorem copy_to_user_end (buffer message : List Char) :
    copy_to_user buffer (buffer.length : Int) message = buffer ++ message := by
  simp [copy_to_user]

theorem device_read_loop_fits :
    ∀ (hidden_proc : List Int) (buffer : List Char),
      (∀ id ∈ hidden_proc, (pid_line id).length + 1 ≤ MAX_MESSAGE_SIZE) →
      device_read_loop hidden_proc (buffer, (buffer.length : Int)) =
        some (buffer ++ (hidden_proc.map pid_line).flatten,
          ((buffer ++ (hidden_proc.map pid_line).flatten).length : Int)) := by
  intro hidden_proc
  induction hidden_proc with
  | nil => intro buffer _; simp [device_read_loop]
  | cons id rest ih =>
    intro buffer hfit
    have h1 : (pid_line id).length + 1 ≤ MAX_MESSAGE_SIZE := hfit id (List.mem_cons_self _ _)
    have h2 := ih (buffer ++ pid_line id) (fun x hx => hfit x (List.mem_cons_of_mem _ hx))
    simp only [device_read_loop, sprintf_message, if_pos h1, copy_to_user_end]
    have e : (buffer.length : Int) + ((pid_line id).length : Int)
        = ((buffer ++ pid_line id).length : Int) := by
      simp
    rw [e, h2]
    simp

/-- When every line fits `message` with its NUL, `device_read` at offset 0
stores the lines of the entries in list order and returns their total length,
also left in `*offset`, whatever `len`; at a nonzero offset it returns 0 and
stores nothing. -/
theorem device_read_fits (hidden_proc : List Int) (len : Nat)
    (hfit : ∀ id ∈ hidden_proc, (pid_line id).length + 1 ≤ MAX_MESSAGE_SIZE) :
    device_read hidden_proc len 0 =
        some ⟨((hidden_proc.map pid_line).flatten.length : Int),
          (hidden_proc.map pid_line).flatten,
          ((hidden_proc.map pid_line).flatten.length : Int)⟩ ∧
      ∀ offset : Int, offset ≠ 0 →
        device_read hidden_proc len offset = some ⟨0, [], offset⟩ := by
  constructor
  · have h := device_read_loop_fits hidden_proc [] hfit
    simp only [List.length_nil, Nat.cast_zero, List.nil_append] at h
    simp [device_read, h]
  · intro offset ho
    simp [device_read, ho]

theorem device_read_fits_sample :
    device_read [7, 1000, -5] 4 0 = some ⟨25, (pid_line 7 ++ pid_line 1000 ++ pid_line (-5)), 25⟩ ∧
      pid_line 7 = ['p', 'i', 'd', ':', ' ', '7', '\n'] := by
  decide

theorem digitChar_digit (d : Nat) (h : d < 10) :
    ('0' ≤ Nat.digitChar d ∧ Nat.digitChar d ≤ '9') ∧
      (Nat.digitChar d).toNat - '0'.toNat = d ∧
      Nat.digitChar d ≠ NUL ∧ Nat.digitChar d ≠ '-' ∧ Nat.digitChar d ≠ '+' := by
  interval_cases d <;> decide

theorem toDigitsCore_append (fuel : Nat) :
    ∀ (n : Nat) (ds : List Char),
      Nat.toDigitsCore 10 fuel n ds = Nat.toDigitsCore 10 fuel n [] ++ ds := by
  induction fuel with
  | zero => intro n ds; simp [Nat.toDigitsCore]
  | succ fuel ih =>
    intro n ds
    by_cases h : n / 10 = 0
    · simp [Nat.toDigitsCore, h]
    · simp only [Nat.toDigitsCore, h, if_false]
      rw [ih (n / 10) (Nat.digitChar (n % 10) :: ds), ih (n / 10) [Nat.digitChar (n % 10)]]
      simp

theorem toDigitsCore_digits (fuel : Nat) :
    ∀ n, n < fuel →
      (∀ c ∈ Nat.toDigitsCore 10 fuel n [], '0' ≤ c ∧ c ≤ '9') ∧
        digits_value (Nat.toDigitsCore 10 fuel n []) 0 = n ∧
        Nat.toDigitsCore 10 fuel n [] ≠ [] := by
  induction fuel with
  | zero => intro n h; omega
  | succ fuel ih =>
    intro n hn
    have hd := digitChar_digit (n % 10) (Nat.mod_lt _ (by decide))
    by_cases h : n / 10 = 0
    · have hn10 : n % 10 = n := by omega
      rw [hn10] at hd
      simp only [Nat.toDigitsCore, h, if_true, hn10]
      refine ⟨?_, ?_, by simp⟩
      · intro c hc
        rw [List.mem_singleton] at hc
        rw [hc]
        exact hd.1
      · simp only [digits_value, List.foldl_cons, List.foldl_nil, hd.2.1]
        omega
    · simp only [Nat.toDigitsCore, h, if_false]
      rw [toDigitsCore_append]
      obtain ⟨h1, h2, h3⟩ := ih (n / 10) (by omega)
      refine ⟨?_, ?_, by simp⟩
      · intro c hc
        rcases List.mem_append.1 hc with e | e
        · exact h1 c e
        · rw [List.mem_singleton] at e
          rw [e]
          exact hd.1
      · unfold digits_value at h2 ⊢
        rw [List.foldl_append, h2]
        simp only [List.foldl_cons, List.foldl_nil, hd.2.1]
        omega

theorem parse_integer_digits :
    ∀ (l : List Char) (rv res : Nat), (∀ c ∈ l, '0' ≤ c ∧ c ≤ '9') →
      parse_integer l rv res = (rv + l.length, digits_value l res, []) ∧
      parse_integer (l ++ ['\n']) rv res = (rv + l.length, digits_value l res, ['\n']) := by
  intro l
  induction l with
  | nil =>
    intro rv res _
    constructor
    · rfl
    · have : ¬ ('0' ≤ '\n' ∧ '\n' ≤ '9') := by decide
      simp [parse_integer, this, digits_value]
  | cons c l ih =>
    intro rv res hl
    have hc := hl c (List.mem_cons_self _ _)
    have h := ih (rv + 1) (res * 10 + (c.toNat - '0'.toNat))
      (fun x hx => hl x (List.mem_cons_of_mem _ hx))
    have e : rv + 1 + l.length = rv + (c :: l).length := by simp; omega
    constructor
    · simp only [parse_integer, if_pos hc, h.1, e]
      rfl
    · simp only [List.cons_append, parse_integer, if_pos hc, List.append_eq, h.2, e]
      rfl

theorem kstrtol_toDigits (n : Nat) (hn : n < 2 ^ 63) :
    kstrtol (Nat.toDigits 10 n) = some (n : Int) := by
  obtain ⟨h1, h2, h3⟩ := toDigitsCore_digits (n + 1) n (by omega)
  have hp := (parse_integer_digits (Nat.toDigits 10 n) 0 0 h1).1
  unfold Nat.toDigits at hp ⊢
  generalize Nat.toDigitsCore 10 (n + 1) n [] = l at h1 h2 h3 hp
  cases l with
  | nil => exact absurd rfl h3
  | cons c l =>
    have hc := h1 c (List.mem_cons_self _ _)
    have hminus : c ≠ '-' := by
      intro e; rw [e] at hc; exact absurd hc (by decide)
    have hplus : c ≠ '+' := by
      intro e; rw [e] at hc; exact absurd hc (by decide)
    have hbody : kstrtoull_body (c :: l) = some n := by
      unfold kstrtoull_body
      rw [hp, h2]
      have h63 : (2 : Nat) ^ 63 = 9223372036854775808 := by norm_num
      have : n < 18446744073709551616 := by omega
      simp [this]
    have hull : kstrtoull (c :: l) = some n := by
      unfold kstrtoull
      split
      · rename_i s1 heq
        exact absurd (List.cons.inj heq).1 hplus
      · exact hbody
    unfold kstrtol
    split
    · rename_i s1 heq
      exact absurd (List.cons.inj heq).1 hminus
    · rw [hull]
      have h63 : (2 : Nat) ^ 63 = 9223372036854775808 := by norm_num
      have : n < 9223372036854775808 := by omega
      simp [this]

theorem takeWhile_stop (p : Char → Bool) (x : Char) (r : List Char) (hx : p x = false) :
    ∀ l : List Char, (∀ c ∈ l, p c = true) → (l ++ x :: r).takeWhile p = l := by
  intro l
  induction l with
  | nil => intro _; simp [List.takeWhile, hx]
  | cons c l ih =>
    intro hl
    have hc := hl c (List.mem_cons_self _ _)
    simp only [List.cons_append, List.takeWhile_cons, hc, if_true]
    rw [ih (fun y hy => hl y (List.mem_cons_of_mem _ hy))]

theorem toDigits_not_NUL (n : Nat) :
    ∀ c ∈ Nat.toDigits 10 n, decide (c ≠ NUL) = true := by
  intro c hc
  have h := (toDigitsCore_digits (n + 1) n (by omega)).1 c hc
  have : c ≠ NUL := by
    intro e
    rw [e] at h
    exact absurd h (by decide)
  simpa using this

theorem c_string_command (a b c d : Char) (n : Nat) (beyond : List Char) :
    c_string (a :: b :: c :: d :: (Nat.toDigits 10 n ++ [NUL])) beyond 4 = Nat.toDigits 10 n := by
  unfold c_string
  have e : ((a :: b :: c :: d :: (Nat.toDigits 10 n ++ [NUL])) ++ beyond).drop 4
      = Nat.toDigits 10 n ++ NUL :: beyond := by
    simp
  rw [e]
  exact takeWhile_stop _ NUL beyond (by decide) _ (toDigits_not_NUL n)

theorem to_pid_t_small (n : Nat) (hn : n < 2 ^ 31) : to_pid_t (n : Int) = (n : Int) := by
  unfold to_pid_t
  have h31 : (2 : Nat) ^ 31 = 2147483648 := by norm_num
  norm_num
  omega

/-- The write of `add `, or of `del `, followed by the decimal digits of a
non-negative `n` below `2 ^ 31`: the parse starts at byte 4, yields `n`, and
the command is applied to `n`; all bytes are reported consumed. -/
theorem device_write_digits (env : write_env) (hidden_proc : List Int) (n : Nat)
    (hn : n < 2 ^ 31) (offset : Int) :
    device_write env hidden_proc ('a' :: 'd' :: 'd' :: ' ' :: Nat.toDigits 10 n) offset
        = ⟨((Nat.toDigits 10 n).length + 4 : Nat), hide_process hidden_proc n,
            ((Nat.toDigits 10 n).length + 4 : Nat)⟩ ∧
      device_write env hidden_proc ('d' :: 'e' :: 'l' :: ' ' :: Nat.toDigits 10 n) offset
        = ⟨((Nat.toDigits 10 n).length + 4 : Nat), unhide_process hidden_proc n,
            ((Nat.toDigits 10 n).length + 4 : Nat)⟩ := by
  have hk := kstrtol_toDigits n (by
    have : (2 : Nat) ^ 31 < 2 ^ 63 := by norm_num
    omega)
  have hp := to_pid_t_small n hn
  have hlen : ¬ ((Nat.toDigits 10 n).length + 1 + 1 + 1 + 1 < 3) := by omega
  constructor
  · simp [device_write, c_string_command, hk, hp, hlen]
    omega
  · simp [device_write, c_string_command, hk, hp, hlen]
    omega

theorem pid_line_nat (n : Nat) :
    pid_line (n : Int) = ['p', 'i', 'd', ':', ' '] ++ Nat.toDigits 10 n ++ ['\n'] := by
  have h : ¬ ((n : Int) < 0) := by omega
  simp [pid_line, fmt_d, h]

/-- The round trip for a pid of at most six digits: `add n` on the empty
registry leaves `[n]`, the read at offset 0 gives the one line `pid: n`, `del
n` empties the registry again and the read that follows gives nothing. -/
theorem round_trip_fits (env : write_env) (len n : Nat) (hn : n < 10 ^ 6) :
    (device_write env [] ('a' :: 'd' :: 'd' :: ' ' :: Nat.toDigits 10 n) 0).hidden_proc = [(n : Int)] ∧
      device_read [(n : Int)] len 0 =
        some ⟨((['p', 'i', 'd', ':', ' '] ++ Nat.toDigits 10 n ++ ['\n']).length : Int),
          ['p', 'i', 'd', ':', ' '] ++ Nat.toDigits 10 n ++ ['\n'],
          ((['p', 'i', 'd', ':', ' '] ++ Nat.toDigits 10 n ++ ['\n']).length : Int)⟩ ∧
      (device_write env [(n : Int)] ('d' :: 'e' :: 'l' :: ' ' :: Nat.toDigits 10 n) 0).hidden_proc = [] ∧
      device_read [] len 0 = some ⟨0, [], 0⟩ := by
  have h31 : n < 2 ^ 31 := by
    have : (10 : Nat) ^ 6 < 2 ^ 31 := by norm_num
    omega
  have hlen : (Nat.toDigits 10 n).length ≤ 6 :=
    Nat.toDigitsCore_length 10 (by decide) (n + 1) n 6 hn (by decide)
  have hfit : ∀ id ∈ [(n : Int)], (pid_line id).length + 1 ≤ MAX_MESSAGE_SIZE := by
    intro id hid
    rw [List.mem_singleton] at hid
    rw [hid, pid_line_nat]
    have : MAX_MESSAGE_SIZE = 13 := by decide
    simp only [this, List.length_append, List.length_cons, List.length_nil]
    omega
  have hr := (device_read_fits [(n : Int)] len hfit).1
  simp only [List.map_cons, List.map_nil, List.flatten_cons, List.flatten_nil,
    List.append_nil, pid_line_nat] at hr
  refine ⟨?_, hr, ?_, by rfl⟩
  · rw [(device_write_digits env [] n h31 0).1]
    simp [hide_process]
  · rw [(device_write_digits env [(n : Int)] n h31 0).2]
    simp [unhide_process]

/-- C9, at the failing input. The registry `[1000000]` is what `hide_process`
makes of the empty registry and the id 1000000; its line with the terminating
NUL takes 14 bytes, `message` has 13, and `device_read` at offset 0 runs past
the end of `message` instead of storing the line. -/
theorem device_read_overrun (len : Nat) :
    hide_process [] 1000000 = [1000000] ∧
      (pid_line 1000000).length + 1 = 14 ∧ MAX_MESSAGE_SIZE = 13 ∧
      device_read [1000000] len 0 = none :=
  ⟨rfl, by decide, by decide, rfl⟩

/-- C10, at the witness and at the failing input. For `n = 7` the round trip
gives the line `pid: 7` and then nothing. For `n = 1000000` the write of
`add 1000000` leaves the registry `[1000000]` and the read that follows runs
past the end of `message`. -/
theorem round_trip_overrun (env : write_env) (len : Nat) :
    (device_read (device_write env [] ['a', 'd', 'd', ' ', '7'] 0).hidden_proc len 0
        = some ⟨7, ['p', 'i', 'd', ':', ' ', '7', '\n'], 7⟩ ∧
      device_read
          (device_write env (device_write env [] ['a', 'd', 'd', ' ', '7'] 0).hidden_proc
            ['d', 'e', 'l', ' ', '7'] 0).hidden_proc len 0
        = some ⟨0, [], 0⟩) ∧
      (device_write env [] ['a', 'd', 'd', ' ', '1', '0', '0', '0', '0', '0', '0'] 0
        = ⟨11, [1000000], 11⟩ ∧
      device_read
          (device_write env [] ['a', 'd', 'd', ' ', '1', '0', '0', '0', '0', '0', '0'] 0).hidden_proc
          len 0
        = none) := by
  have hadd : device_write env [] ['a', 'd', 'd', ' ', '7'] 0 = ⟨5, [7], 5⟩ := by rfl
  have hdel : device_write env [7] ['d', 'e', 'l', ' ', '7'] 0 = ⟨5, [], 5⟩ := by rfl
  have hbig : device_write env [] ['a', 'd', 'd', ' ', '1', '0', '0', '0', '0', '0', '0'] 0
      = ⟨11, [1000000], 11⟩ := by rfl
  rw [hadd, hdel, hbig]
  exact ⟨⟨by rfl, by rfl⟩, rfl, by rfl⟩

/-! ## Properties of the write command -/

theorem message_take (buffer : List Char) (h : ¬ buffer.length < 3) :
    (buffer ++ [NUL]).take 3 = buffer.take 3 :=
  List.take_append_of_le_length (by omega)

/-- C11. A payload shorter than 3 bytes, or whose first three bytes are neither
`add` nor `del`, makes `device_write` return `-EAGAIN` and leave `*offset`
and the registry as they were. -/
theorem device_write_rejects (env : write_env) (hidden_proc : List Int)
    (buffer : List Char) (offset : Int)
    (h : buffer.length < 3 ∨
      (buffer.take 3 ≠ ['a', 'd', 'd'] ∧ buffer.take 3 ≠ ['d', 'e', 'l'])) :
    device_write env hidden_proc buffer offset = ⟨-EAGAIN, hidden_proc, offset⟩ := by
  by_cases hlen : buffer.length < 3
  · simp [device_write, hlen]
  · rcases h with h | ⟨ha, hd⟩
    · exact absurd h hlen
    · have hm := message_take buffer hlen
      simp only [device_write, List.length_cons, List.length_nil, Nat.add_sub_cancel]
      simp [hlen, hm, ha, hd]

/-- Witness of C11: the 2-byte payload `xy`, and the payload `hide 7`. -/
theorem device_write_rejects_witness :
    device_write ⟨99, []⟩ [7, 3] ['x', 'y'] 0 = ⟨-EAGAIN, [7, 3], 0⟩ ∧
      device_write ⟨99, []⟩ [7, 3] ['h', 'i', 'd', 'e', ' ', '7'] 5 = ⟨-EAGAIN, [7, 3], 5⟩ :=
  ⟨device_write_rejects ⟨99, []⟩ [7, 3] ['x', 'y'] 0 (Or.inl (by decide)),
    device_write_rejects ⟨99, []⟩ [7, 3] ['h', 'i', 'd', 'e', ' ', '7'] 5
      (Or.inr ⟨by decide, by decide⟩)⟩

/-- C12. A payload of `len >= 3` bytes that starts with `add` or `del` makes
`device_write` return `len` and set `*offset` to `len`, whatever the parse of
the rest gives. -/
theorem device_write_consumes_all (env : write_env) (hidden_proc : List Int)
    (buffer : List Char) (offset : Int) (hlen : 3 ≤ buffer.length)
    (hpre : buffer.take 3 = ['a', 'd', 'd'] ∨ buffer.take 3 = ['d', 'e', 'l']) :
    (device_write env hidden_proc buffer offset).ret = (buffer.length : Int) ∧
      (device_write env hidden_proc buffer offset).offset = (buffer.length : Int) := by
  have hl : ¬ buffer.length < 3 := by omega
  have hm := message_take buffer hl
  rcases hpre with ha | hd
  · simp only [device_write, List.length_cons, List.length_nil, Nat.add_sub_cancel]
    simp [hl, hm, ha]
  · simp only [device_write, List.length_cons, List.length_nil, Nat.add_sub_cancel]
    simp [hl, hm, hd]

/-- Witness of C12: `addxyz`, whose rest does not parse, is reported consumed
in full (the registry receives the value `pid` happened to hold). -/
theorem device_write_consumes_all_witness :
    kstrtol (c_string (['a', 'd', 'd', 'x', 'y', 'z'] ++ [NUL]) [] 4) = none ∧
      (device_write ⟨99, []⟩ [] ['a', 'd', 'd', 'x', 'y', 'z'] 0).ret = 6 ∧
      (device_write ⟨99, []⟩ [] ['a', 'd', 'd', 'x', 'y', 'z'] 0).offset = 6 :=
  ⟨by decide,
    device_write_consumes_all ⟨99, []⟩ [] ['a', 'd', 'd', 'x', 'y', 'z'] 0 (by decide)
      (Or.inl (by decide))⟩

/-! ## The filter and the content of the registry -/

theorem is_hidden_proc_congr {l1 l2 : List Int} (h : ∀ x, x ∈ l1 ↔ x ∈ l2) (pid : Int) :
    is_hidden_proc l1 pid = is_hidden_proc l2 pid := by
  have h1 := is_hidden_proc_iff l1 pid
  have h2 := is_hidden_proc_iff l2 pid
  have h3 := h pid
  cases e1 : is_hidden_proc l1 pid <;> cases e2 : is_hidden_proc l2 pid <;> simp_all

theorem hook_skip_congr {l1 l2 : List Int} (h : ∀ x, x ∈ l1 ↔ x ∈ l2) (p : struct_pid) :
    hook_skip l1 p = hook_skip l2 p := by
  unfold hook_skip
  rw [is_hidden_proc_congr h p.nr]
  cases p.task with
  | none => rfl
  | some t => simp only [is_hidden_proc_congr h t.real_parent_pid]

theorem hook_loop_congr (real : Int → Option struct_pid) {l1 l2 : List Int}
    (h : ∀ x, x ∈ l1 ↔ x ∈ l2) :
    ∀ (n : Nat) (c : Option struct_pid), hook_loop real l1 n c = hook_loop real l2 n c := by
  intro n
  induction n with
  | zero => intro c; cases c <;> rfl
  | succ n ih =>
    intro c
    cases c with
    | none => rfl
    | some p => simp only [hook_loop, hook_skip_congr h p, ih]

/-- C13. The result of `hook_find_ge_pid` depends only on which identifiers
occur in the registry, not on their order or number of occurrences; so
another entry for an `id` already in the registry changes no result, while
`hide_process(id)` does add it as one more entry. -/
theorem duplicate_entry_no_effect (ns : List struct_pid) (nr : Int) :
    (∀ l1 l2 : List Int, (∀ x, x ∈ l1 ↔ x ∈ l2) →
        hook_find_ge_pid l1 ns nr = hook_find_ge_pid l2 ns nr) ∧
      (∀ (hidden_proc : List Int) (id : Int), id ∈ hidden_proc →
        hook_find_ge_pid (hide_process hidden_proc id) ns nr
            = hook_find_ge_pid hidden_proc ns nr ∧
          hook_find_ge_pid (hidden_proc ++ [id]) ns nr
            = hook_find_ge_pid hidden_proc ns nr ∧
          (hide_process hidden_proc id).length = hidden_proc.length + 1 ∧
          (hide_process hidden_proc id).count id = hidden_proc.count id + 1) := by
  constructor
  · intro l1 l2 h
    exact hook_loop_congr _ h _ _
  · intro hidden_proc id hid
    have hset : ∀ x, x ∈ hidden_proc ++ [id] ↔ x ∈ hidden_proc := by
      intro x
      simp only [List.mem_append, List.mem_singleton]
      constructor
      · rintro (hx | hx)
        · exact hx
        · rw [hx]; exact hid
      · exact Or.inl
    refine ⟨hook_loop_congr _ hset _ _, hook_loop_congr _ hset _ _, ?_, ?_⟩
    · simp [hide_process]
    · simp [hide_process, List.count_append]

/-- Witness of C13: with 100 already in the registry, a second entry 100 leaves
the result at start value 100 as it was, and the registry has two entries. -/
theorem duplicate_entry_no_effect_witness :
    hook_find_ge_pid [100] ns_sample 100 = some (some ⟨200, some ⟨1⟩⟩) ∧
      hook_find_ge_pid (hide_process [100] 100) ns_sample 100
        = hook_find_ge_pid [100] ns_sample 100 ∧
      hide_process [100] 100 = [100, 100] :=
  ⟨by decide,
    ((duplicate_entry_no_effect ns_sample 100).2 [100] 100 (by decide)).1,
    by decide⟩

/-- C20. With an empty registry, on a namespace where every candidate the
original primitive returns has a task, `hook_find_ge_pid(nr, ns)` returns
what `real_find_ge_pid(nr, ns)` returns. -/
theorem empty_registry_transparent (ns : List struct_pid) (nr : Int)
    (htask : ∀ b p, real_find_ge_pid ns b = some p → p.task ≠ none) :
    hook_find_ge_pid [] ns nr = some (real_find_ge_pid ns nr) := by
  unfold hook_find_ge_pid hook_find_ge_pid_fuel
  cases hreal : real_find_ge_pid ns nr with
  | none => exact hook_loop_none _ _ _
  | some p =>
    have hmem := live_mem (idr_get_next_some hreal).1
    obtain ⟨k, hk⟩ : ∃ k, ns.length = k + 1 :=
      ⟨ns.length - 1, by have := List.length_pos_of_mem hmem; omega⟩
    rw [hk]
    have hskip : hook_skip [] p = false := by
      unfold hook_skip
      cases ht : p.task with
      | none => exact absurd ht (htask nr p hreal)
      | some t => simp [is_hidden_proc]
    simp [hook_loop, hskip]

theorem ns_sample_candidates :
    ∀ b p, real_find_ge_pid ns_sample b = some p → p.task ≠ none :=
  fun _ p h => ns_sample_tasks p (idr_get_next_some h).1

/-- Witness of C20: on the sample namespace both return 150 at start value
101, and both return none at 251. -/
theorem empty_registry_transparent_witness :
    real_find_ge_pid ns_sample 101 = some ⟨150, some ⟨100⟩⟩ ∧
      real_find_ge_pid ns_sample 251 = none ∧
      hook_find_ge_pid [] ns_sample 101 = some (real_find_ge_pid ns_sample 101) ∧
      hook_find_ge_pid [] ns_sample 251 = some (real_find_ge_pid ns_sample 251) :=
  ⟨by decide, by decide,
    empty_registry_transparent ns_sample 101 ns_sample_candidates,
    empty_registry_transparent ns_sample 251 ns_sample_candidates⟩

/-! ## Properties of the hook engine -/

theorem within_module_iff (addr : Nat) (mod : struct_module) :
    within_module addr mod = true ↔ inside_module mod addr := by
  simp [within_module, inside_module]

/-- What `hook_install` does in each of the three outcomes of the two host
calls: the return value, the calls made, and the filter and registration
state of the ops it leaves. -/
theorem hook_install_cases (h : ftrace_host) (hook : ftrace_hook) :
    (h.set_filter_ret ≠ 0 →
        (hook_install h hook).1 = h.set_filter_ret ∧
          (hook_install h hook).2.2 = [host_call.set_filter hook.name] ∧
          (hook_install h hook).2.1.ops.filter = hook.ops.filter ∧
          (hook_install h hook).2.1.ops.registered = hook.ops.registered) ∧
      (h.set_filter_ret = 0 → h.register_ret ≠ 0 →
        (hook_install h hook).1 = h.register_ret ∧
          (hook_install h hook).2.2 =
            [host_call.set_filter hook.name, host_call.register,
              host_call.set_filter_ip hook.address] ∧
          (hook_install h hook).2.1.ops.filter =
            (hook.ops.filter ++ [h.target_ip]).filter (fun a => decide (a ≠ hook.address)) ∧
          (hook_install h hook).2.1.ops.registered = hook.ops.registered) ∧
      (h.set_filter_ret = 0 → h.register_ret = 0 →
        (hook_install h hook).1 = 0 ∧
          (hook_install h hook).2.2 = [host_call.set_filter hook.name, host_call.register] ∧
          (hook_install h hook).2.1.ops.filter = hook.ops.filter ++ [h.target_ip] ∧
          (hook_install h hook).2.1.ops.registered = true) := by
  refine ⟨?_, ?_, ?_⟩
  · intro h1
    simp [hook_install, ftrace_set_filter, h1]
  · intro h1 h2
    simp [hook_install, ftrace_set_filter, register_ftrace_function, ftrace_set_filter_ip, h1, h2]
  · intro h1 h2
    simp [hook_install, ftrace_set_filter, register_ftrace_function, h1, h2]

theorem hook_install_zero_iff (h : ftrace_host) (hook : ftrace_hook) :
    (hook_install h hook).1 = 0 ↔ (h.set_filter_ret = 0 ∧ h.register_ret = 0) := by
  obtain ⟨c1, c2, c3⟩ := hook_install_cases h hook
  by_cases h1 : h.set_filter_ret = 0
  · by_cases h2 : h.register_ret = 0
    · simp [(c3 h1 h2).1, h1, h2]
    · simp [(c2 h1 h2).1, h1, h2]
  · simp [(c1 h1).1, h1]

/-- C14 fails as stated: when the host rejects the name filter with error -2,
`hook_install` returns -2 and `_hideproc_init` returns 0. -/
theorem init_reports_success_on_install_error :
    ¬ ∀ (h : ftrace_host) (addr : Nat),
        (hook_install h (hook_prepared addr)).1 ≠ 0 → (_hideproc_init h addr).1 ≠ 0 := by
  intro hall
  exact hall ⟨4096, -2, 0⟩ 8192 (by decide) (by decide)

/-- C14, amended. Whatever the host calls return, also when `hook_install`
returns an error, `_hideproc_init` returns 0 and leaves the hook as
`hook_install` left it. -/
theorem hideproc_init_returns_zero (h : ftrace_host) (addr : Nat) :
    (_hideproc_init h addr).1 = 0 ∧
      (_hideproc_init h addr).2 = (hook_install h (hook_prepared addr)).2.1 :=
  ⟨rfl, rfl⟩

/-- When activation fails after a successful name-filter registration, the
target's address stays in the filter unless `hook.address` is that
address. -/
theorem hook_install_rollback (h : ftrace_host) (hook : ftrace_hook)
    (h1 : h.set_filter_ret = 0) (h2 : h.register_ret ≠ 0) :
    (h.target_ip ∈ (hook_install h hook).2.1.ops.filter ↔ hook.address ≠ h.target_ip) := by
  rw [((hook_install_cases h hook).2.1 h1 h2).2.2.1]
  simp only [List.mem_filter, List.mem_append, List.mem_singleton, or_true, true_and,
    decide_eq_true_eq]
  exact ⟨fun hne e => hne e.symm, fun hne e => hne e.symm⟩

/-- C15, at the failing input. The hook is the static one as `init_hook` passes
it (`address` never assigned, so zero), the host resolves the target to
address 4096, accepts the name filter and rejects the activation with error
-16: `hook_install` returns -16 after calling `ftrace_set_filter_ip` with
address 0, and the filter of the ops still holds the target's address. -/
theorem hook_install_leaves_filter (addr : Nat) :
    (hook_prepared addr).address = 0 ∧
      (hook_install ⟨4096, 0, -16⟩ (hook_prepared addr)).1 = -16 ∧
      (hook_install ⟨4096, 0, -16⟩ (hook_prepared addr)).2.2 =
        [host_call.set_filter "find_ge_pid", host_call.register,
          host_call.set_filter_ip 0] ∧
      (hook_install ⟨4096, 0, -16⟩ (hook_prepared addr)).2.1.ops.filter = [4096] ∧
      (hook_install ⟨4096, 0, -16⟩ (hook_prepared addr)).2.1.ops.registered = false := by
  refine ⟨rfl, ?_, ?_, ?_, ?_⟩ <;> rfl

/-- C17. `hook_ftrace_thunk` sets the saved instruction pointer to `hook->func`
when `parent_ip` lies outside the module, leaving the other registers alone,
and leaves the saved registers unchanged when `parent_ip` lies inside the
module. -/
theorem hook_ftrace_thunk_origin (this_module : struct_module) (hook : ftrace_hook)
    (ip parent_ip : Nat) (regs : pt_regs) :
    (¬ inside_module this_module parent_ip →
        hook_ftrace_thunk this_module hook ip parent_ip regs = ⟨hook.func, regs.others⟩) ∧
      (inside_module this_module parent_ip →
        hook_ftrace_thunk this_module hook ip parent_ip regs = regs) := by
  constructor
  · intro hout
    have : within_module parent_ip this_module = false := by
      cases e : within_module parent_ip this_module with
      | false => rfl
      | true => exact absurd ((within_module_iff _ _).1 e) hout
    simp [hook_ftrace_thunk, this]
  · intro hin
    have : within_module parent_ip this_module = true := (within_module_iff _ _).2 hin
    simp [hook_ftrace_thunk, this]

/-- Witness of C17: the module occupies 5000..5099; a call from 7020 is sent to
the replacement at 5010, a call from 5020 is left on the original at 1000. -/
theorem hook_ftrace_thunk_origin_witness :
    ¬ inside_module ⟨0, 0, 5000, 100⟩ 7020 ∧ inside_module ⟨0, 0, 5000, 100⟩ 5020 ∧
      hook_ftrace_thunk ⟨0, 0, 5000, 100⟩ (hook_prepared 5010) 1000 7020 ⟨1000, [1, 2]⟩
        = ⟨5010, [1, 2]⟩ ∧
      hook_ftrace_thunk ⟨0, 0, 5000, 100⟩ (hook_prepared 5010) 1000 5020 ⟨1000, [1, 2]⟩
        = ⟨1000, [1, 2]⟩ :=
  ⟨by decide, by decide,
    (hook_ftrace_thunk_origin ⟨0, 0, 5000, 100⟩ (hook_prepared 5010) 1000 7020
      ⟨1000, [1, 2]⟩).1 (by decide),
    (hook_ftrace_thunk_origin ⟨0, 0, 5000, 100⟩ (hook_prepared 5010) 1000 5020
      ⟨1000, [1, 2]⟩).2 (by decide)⟩

/-! ## Where the parse of the argument starts -/

/-- The write of a payload that starts with `add`: all bytes are reported
consumed and the registry receives the `pid_t` made of what `kstrtol` gives
for the C string at `message + 4`, or of the value `pid` held when `kstrtol`
fails. -/
theorem device_write_add (env : write_env) (hidden_proc : List Int) (buffer : List Char)
    (offset : Int) (hlen : 3 ≤ buffer.length) (hpre : buffer.take 3 = ['a', 'd', 'd']) :
    device_write env hidden_proc buffer offset =
      ⟨(buffer.length : Int),
        hide_process hidden_proc
          (to_pid_t
            (match kstrtol (c_string (buffer ++ [NUL]) env.beyond 4) with
              | some v => v
              | none => env.pid_uninit)),
        (buffer.length : Int)⟩ := by
  have hl : ¬ buffer.length < 3 := by omega
  have hm := message_take buffer hl
  simp only [device_write, List.length_cons, List.length_nil, Nat.add_sub_cancel]
  simp [hl, hm, hpre]

/-- The write of a command word, one further byte, and the decimal digits of a
non-negative `n` below `2 ^ 31`: the command is applied to `n`. -/
theorem device_write_sep_digits (env : write_env) (hidden_proc : List Int) (sep : Char)
    (n : Nat) (hn : n < 2 ^ 31) (offset : Int) :
    (device_write env hidden_proc ('a' :: 'd' :: 'd' :: sep :: Nat.toDigits 10 n) offset).hidden_proc
        = hide_process hidden_proc n ∧
      (device_write env hidden_proc ('d' :: 'e' :: 'l' :: sep :: Nat.toDigits 10 n) offset).hidden_proc
        = unhide_process hidden_proc n := by
  have hk := kstrtol_toDigits n (by
    have : (2 : Nat) ^ 31 < 2 ^ 63 := by norm_num
    omega)
  have hp := to_pid_t_small n hn
  have hlen : ¬ ((Nat.toDigits 10 n).length + 1 + 1 + 1 + 1 < 3) := by omega
  constructor
  · simp [device_write, c_string_command, hk, hp, hlen]
  · simp [device_write, c_string_command, hk, hp, hlen]

/-- C16 fails as stated: on the payload `add7`, with the local `pid` holding 99
and the registry empty, the registry receives 99 and not 7. -/
theorem parse_not_at_index_three :
    ¬ ∀ (env : write_env) (hidden_proc : List Int) (n : Nat), n < 2 ^ 31 →
        (device_write env hidden_proc ('a' :: 'd' :: 'd' :: Nat.toDigits 10 n) 0).hidden_proc
          = hide_process hidden_proc n := by
  intro hall
  have h := hall ⟨99, []⟩ [] 7 (by norm_num)
  exact absurd h (by decide)

/-- C16, amended. The parse starts at byte index 4: for a payload made of `add`
(or `del`), one further byte whatever it is, and the decimal digits of a
non-negative `n` below `2 ^ 31`, `device_write` inserts (or removes) `n`. -/
theorem parse_at_index_four (env : write_env) (hidden_proc : List Int) (sep : Char)
    (n : Nat) (hn : n < 2 ^ 31) (offset : Int) :
    (device_write env hidden_proc ('a' :: 'd' :: 'd' :: sep :: Nat.toDigits 10 n) offset).hidden_proc
        = hide_process hidden_proc n ∧
      (device_write env hidden_proc ('d' :: 'e' :: 'l' :: sep :: Nat.toDigits 10 n) offset).hidden_proc
        = unhide_process hidden_proc n :=
  device_write_sep_digits env hidden_proc sep n hn offset

/-- Witness of C16 as amended: `add 7` inserts 7 and `del 7` removes it. -/
theorem parse_at_index_four_witness :
    (2 : Nat) ^ 31 = 2147483648 ∧
      ('a' :: 'd' :: 'd' :: ' ' :: Nat.toDigits 10 7) = ['a', 'd', 'd', ' ', '7'] ∧
      (device_write ⟨99, []⟩ [3] ('a' :: 'd' :: 'd' :: ' ' :: Nat.toDigits 10 7) 0).hidden_proc
        = hide_process [3] 7 ∧
      (device_write ⟨99, []⟩ [3, 7] ('d' :: 'e' :: 'l' :: ' ' :: Nat.toDigits 10 7) 0).hidden_proc
        = unhide_process [3, 7] 7 :=
  ⟨by norm_num, by decide,
    (parse_at_index_four ⟨99, []⟩ [3] ' ' 7 (by norm_num) 0).1,
    (parse_at_index_four ⟨99, []⟩ [3, 7] ' ' 7 (by norm_num) 0).2⟩

/-- C18, at the failing input. For the 3-byte payload `add` the zero-terminated
copy has 4 bytes, indices 0 to 3; the C string at index 4 is made of the
bytes that follow the copy in memory, and the registry receives what they
parse to: 42 when they are `42`, 7 when they are `7`. -/
theorem parse_starts_past_buffer (env : write_env) (hidden_proc : List Int) (offset : Int) :
    (['a', 'd', 'd'] ++ [NUL]).length = 4 ∧
      c_string (['a', 'd', 'd'] ++ [NUL]) env.beyond 4
        = env.beyond.takeWhile (fun c => decide (c ≠ NUL)) ∧
      device_write env hidden_proc ['a', 'd', 'd'] offset =
        ⟨3, hide_process hidden_proc
            (to_pid_t
              (match kstrtol (env.beyond.takeWhile (fun c => decide (c ≠ NUL))) with
                | some v => v
                | none => env.pid_uninit)), 3⟩ ∧
      device_write ⟨0, ['4', '2']⟩ [] ['a', 'd', 'd'] 0 = ⟨3, [42], 3⟩ ∧
      device_write ⟨0, ['7']⟩ [] ['a', 'd', 'd'] 0 = ⟨3, [7], 3⟩ := by
  have hc : c_string (['a', 'd', 'd'] ++ [NUL]) env.beyond 4
      = env.beyond.takeWhile (fun c => decide (c ≠ NUL)) := by
    simp [c_string]
  refine ⟨rfl, hc, ?_, by decide, by decide⟩
  rw [device_write_add env hidden_proc ['a', 'd', 'd'] offset (by decide) (by decide), hc]
  rfl

/-! ## The size of `message` -/

theorem toDigitsCore_length_gt (fuel : Nat) :
    ∀ (n e : Nat), n < fuel → 10 ^ e ≤ n → e < (Nat.toDigitsCore 10 fuel n []).length := by
  induction fuel with
  | zero => intro n e h; omega
  | succ fuel ih =>
    intro n e hn he
    by_cases h : n / 10 = 0
    · have hlt : n < 10 := by omega
      have he0 : e = 0 := by
        cases e with
        | zero => rfl
        | succ e' =>
          have : 10 ^ 1 ≤ 10 ^ (e' + 1) := Nat.pow_le_pow_right (by decide) (by omega)
          omega
      simp [Nat.toDigitsCore, h, he0]
    · simp only [Nat.toDigitsCore, h, if_false]
      rw [toDigitsCore_append]
      simp only [List.length_append, List.length_cons, List.length_nil]
      cases e with
      | zero => omega
      | succ e' =>
        have hdiv : 10 ^ e' ≤ n / 10 := by
          rw [Nat.le_div_iff_mul_le (by decide)]
          rw [pow_succ] at he
          exact he
        have := ih (n / 10) e' (by omega) hdiv
        omega

theorem toDigits_length_le_iff (n e : Nat) (he : 0 < e) :
    (Nat.toDigits 10 n).length ≤ e ↔ n < 10 ^ e := by
  constructor
  · intro hlen
    by_contra hge
    have := toDigitsCore_length_gt (n + 1) n e (by omega) (by omega)
    unfold Nat.toDigits at hlen
    omega
  · intro hlt
    exact Nat.toDigitsCore_length 10 (by decide) (n + 1) n e hlt he

/-- The line of an id and its terminating NUL fit `message` exactly when the id
lies between -99999 and 999999. -/
theorem sprintf_message_fits_iff (id : Int) :
    sprintf_message id = some (pid_line id) ↔ (-99999 ≤ id ∧ id ≤ 999999) := by
  have hmax : MAX_MESSAGE_SIZE = 13 := by decide
  have hlen : (pid_line id).length = (fmt_d id).length + 6 := by
    simp [pid_line]
  have hiff : sprintf_message id = some (pid_line id) ↔ (fmt_d id).length ≤ 6 := by
    unfold sprintf_message
    rw [hlen, hmax]
    constructor
    · intro h
      by_contra hc
      rw [if_neg (by omega)] at h
      exact Option.noConfusion h
    · intro h
      rw [if_pos (by omega)]
  rw [hiff]
  by_cases hneg : id < 0
  · have h6 := toDigits_length_le_iff id.natAbs 5 (by decide)
    simp only [fmt_d, if_pos hneg, List.length_cons]
    constructor
    · intro h
      have := h6.1 (by omega)
      omega
    · intro h
      have := h6.2 (by omega)
      omega
  · have h6 := toDigits_length_le_iff id.natAbs 6 (by decide)
    simp only [fmt_d, if_neg hneg]
    constructor
    · intro h
      have := h6.1 h
      omega
    · intro h
      exact h6.2 (by omega)

/-- C19, at failing inputs. The pid 1000000 and the least `pid_t` value both
reach the registry through `device_write`; the line of the first with its NUL
takes 14 bytes, that of the second 18, `message` has 13, and `sprintf` runs
past its end for both. -/
theorem pid_line_exceeds_message (env : write_env) :
    MAX_MESSAGE_SIZE = 13 ∧
      (device_write env [] ['a', 'd', 'd', ' ', '1', '0', '0', '0', '0', '0', '0'] 0).hidden_proc
        = [1000000] ∧
      (pid_line 1000000).length + 1 = 14 ∧ sprintf_message 1000000 = none ∧
      (device_write env []
          ['a', 'd', 'd', ' ', '-', '2', '1', '4', '7', '4', '8', '3', '6', '4', '8'] 0).hidden_proc
        = [-2147483648] ∧
      (pid_line (-2147483648)).length + 1 = 18 ∧ sprintf_message (-2147483648) = none := by
  refine ⟨by decide, by rfl, by decide, by decide, by rfl, by decide, by decide⟩

end Hideproc
